import Mathlib

/-! # Curve fitting for missing yearly observations

A shallow embedding of the numerical core of the two C programs
`kodepemrogramana.c` (exponential + linear fit) and `tempCodeRunnerFile.c`
(polynomial fit through Gauss-Jordan elimination), followed by theorems about it.

Conventions of the embedding.

* `double` is read as exact arithmetic: every definition is generic over a linearly
  ordered field `K`, so it runs on `ℚ` and is reasoned about on `ℝ`.
* A C array `double a[]` is a function `Nat → K` from index to cell, a `double**`
  is a function `Nat → Nat → K`; a store `a[i] = v` is `setAt a i v`.
* A `for (int i = 0; i < n; i++)` loop is `forLoop n body s`, the body threaded
  through the state `s` for `i = 0, 1, ..., n-1` in that order.
* `exit(1)` is the result `none`; a call that comes back is `some _`.
* `log`, `exp` of `<math.h>` are parameters of the functions that call them.
* An `int` is an `Int`; the subtraction of `normalizeYears` is reduced to 32 bits by
  `wrapInt32`, array lengths and the polynomial degree are natural numbers.
-/

namespace Komnum

open Finset

set_option linter.unusedSectionVars false

variable {K : Type} [LinearOrderedField K]

/-! ## Loops and stores -/

/-- The loop `for (int i = 0; i < n; i++) s = body i s;`. -/
def forLoop {σ : Type} (n : Nat) (body : Nat → σ → σ) (s : σ) : σ :=
  match n with
  | 0 => s
  | k + 1 => body k (forLoop k body s)

/-- The loop `for (int j = lo; j < hi; j++) s = body j s;`. -/
def forLoopFrom {σ : Type} (lo hi : Nat) (body : Nat → σ → σ) (s : σ) : σ :=
  forLoop (hi - lo) (fun t => body (lo + t)) s

/-- The store `a[i] = v` into a one-dimensional array. -/
def setAt (a : Nat → K) (i : Nat) (v : K) : Nat → K :=
  fun k => if k = i then v else a k

/-- The store `m[r][c] = v` into a two-dimensional array. -/
def setCell (m : Nat → Nat → K) (r c : Nat) (v : K) : Nat → Nat → K :=
  fun r' c' => if r' = r ∧ c' = c then v else m r' c'

/-! ## `kodepemrogramana.c`: linear and exponential regression -/

/-- The four accumulators of `linearRegression`. -/
structure LinSums (K : Type) where
  sum_x : K
  sum_y : K
  sum_xy : K
  sum_x2 : K

/-- The accumulation loop of `linearRegression`. -/
def linearRegressionSums (x y : Nat → K) (n : Nat) : LinSums K :=
  forLoop n
    (fun i s =>
      { sum_x := s.sum_x + x i
        sum_y := s.sum_y + y i
        sum_xy := s.sum_xy + x i * y i
        sum_x2 := s.sum_x2 + x i * x i })
    { sum_x := 0, sum_y := 0, sum_xy := 0, sum_x2 := 0 }

/-- The divisor `n * sum_x2 - sum_x * sum_x` of the slope in `linearRegression`. -/
def linearRegressionDenominator (x y : Nat → K) (n : Nat) : K :=
  let s := linearRegressionSums x y n
  (n : K) * s.sum_x2 - s.sum_x * s.sum_x

/-- The function `linearRegression(x, y, n, &a, &b)`; the result is the pair `(a, b)`. -/
def linearRegression (x y : Nat → K) (n : Nat) : K × K :=
  let s := linearRegressionSums x y n
  let b := ((n : K) * s.sum_xy - s.sum_x * s.sum_y) / linearRegressionDenominator x y n
  let a := (s.sum_y - b * s.sum_x) / (n : K)
  (a, b)

/-- A call of `linearRegression` seen as a run of the program: the body holds no test of
its input and no `exit`, so the call always comes back with the pair it computed. -/
def linearRegressionCall (x y : Nat → K) (n : Nat) : Option (K × K) :=
  some (linearRegression x y n)

/-- The state of the filtering loop of `exponentialRegression`: the caller's `x`
(compacted in place), the local block `ln_y` and the counter `valid_points`. -/
structure ExpLoopState (K : Type) where
  x : Nat → K
  ln_y : Nat → K
  valid_points : Nat

/-- The loop of `exponentialRegression` that keeps the samples with `y[i] > 0`. The block
`ln_y` comes from `malloc`; it is taken zero-filled, and only cells written by the loop are
read afterwards. -/
def exponentialRegressionLoop (log : K → K) (x y : Nat → K) (n : Nat) : ExpLoopState K :=
  forLoop n
    (fun i s =>
      if y i > 0 then
        let ln_y := setAt s.ln_y s.valid_points (log (y i))
        let x := setAt s.x s.valid_points (s.x i)
        { x := x, ln_y := ln_y, valid_points := s.valid_points + 1 }
      else s)
    { x := x, ln_y := fun _ => 0, valid_points := 0 }

/-- The outcome of `exponentialRegression`: the outputs `*a`, `*b` and the caller's array
`x` as the call leaves it. -/
structure ExpResult (K : Type) where
  a : K
  b : K
  x : Nat → K

/-- The function `exponentialRegression(x, y, n, &a, &b)`. -/
def exponentialRegression (log exp : K → K) (x y : Nat → K) (n : Nat) : ExpResult K :=
  let s := exponentialRegressionLoop log x y n
  let r := linearRegression s.x s.ln_y s.valid_points
  let ln_a := r.1
  let b_value := r.2
  { a := exp ln_a, b := b_value, x := s.x }

/-- A call of `exponentialRegression` seen as a run of the program: like
`linearRegression`, to which it hands the filtered samples unchecked, it has no `exit`. -/
def exponentialRegressionCall (log exp : K → K) (x y : Nat → K) (n : Nat) :
    Option (ExpResult K) :=
  (linearRegressionCall (exponentialRegressionLoop log x y n).x
      (exponentialRegressionLoop log x y n).ln_y
      (exponentialRegressionLoop log x y n).valid_points).map
    (fun _ => exponentialRegression log exp x y n)

/-- The prediction `a_internet * exp(b_internet * normalized_year)` of `main`. -/
def predictExponential (exp : K → K) (a_internet b_internet : K) (year base_year : Int) : K :=
  let normalized_year : K := ((year - base_year : Int) : K)
  a_internet * exp (b_internet * normalized_year)

/-! ## `tempCodeRunnerFile.c`: Gauss-Jordan elimination and polynomial regression -/

/-- The function `allocateMatrix(rows, cols)`: a fresh block from `malloc`, taken
zero-filled; its callers write every cell they later read. -/
def allocateMatrix (_rows _cols : Nat) : Nat → Nat → K :=
  fun _ _ => 0

/-- The tolerance `1e-10` of the singularity test. -/
def pivotTolerance : K := 1 / 10 ^ 10

/-- The first loop nest of `gaussJordan`: copy `[A|B]` into `augmented`. -/
def gaussJordanInit (A : Nat → Nat → K) (B : Nat → K) (n : Nat) : Nat → Nat → K :=
  forLoop n
    (fun i augmented =>
      let augmented := forLoop n (fun j augmented => setCell augmented i j (A i j)) augmented
      setCell augmented i n (B i))
    (allocateMatrix n (n + 1))

/-- The pivot search of `gaussJordan` in column `i`: the final value of `max_row`. -/
def gaussJordanMaxRow (augmented : Nat → Nat → K) (i n : Nat) : Nat :=
  forLoopFrom (i + 1) n
    (fun j max_row => if |augmented j i| > |augmented max_row i| then j else max_row)
    i

/-- The row exchange of `gaussJordan`, done when `max_row != i`. -/
def gaussJordanSwap (augmented : Nat → Nat → K) (i max_row n : Nat) : Nat → Nat → K :=
  if max_row ≠ i then
    forLoop (n + 1)
      (fun j augmented =>
        let temp := augmented i j
        let augmented := setCell augmented i j (augmented max_row j)
        setCell augmented max_row j temp)
      augmented
  else augmented

/-- The loop `augmented[i][j] /= pivot` for `j = 0..n`. -/
def gaussJordanNormalize (augmented : Nat → Nat → K) (i n : Nat) (pivot : K) :
    Nat → Nat → K :=
  forLoop (n + 1) (fun j augmented => setCell augmented i j (augmented i j / pivot)) augmented

/-- The loop that clears column `i` in every row `j != i`. -/
def gaussJordanEliminate (augmented : Nat → Nat → K) (i n : Nat) : Nat → Nat → K :=
  forLoop n
    (fun j augmented =>
      if j ≠ i then
        let factor := augmented j i
        forLoop (n + 1)
          (fun k augmented => setCell augmented j k (augmented j k - factor * augmented i k))
          augmented
      else augmented)
    augmented

/-- One pass of the elimination loop of `gaussJordan` for column `i`; `none` is the
branch that prints "Matriks singular" and calls `exit(1)`. -/
def gaussJordanStep (n i : Nat) (augmented : Nat → Nat → K) : Option (Nat → Nat → K) :=
  let max_row := gaussJordanMaxRow augmented i n
  let augmented := gaussJordanSwap augmented i max_row n
  let pivot := augmented i i
  if |pivot| < pivotTolerance then none
  else
    let augmented := gaussJordanNormalize augmented i n pivot
    some (gaussJordanEliminate augmented i n)

/-- The elimination loop of `gaussJordan` over the columns `0..n-1`. -/
def gaussJordanEliminationLoop (n : Nat) (augmented : Nat → Nat → K) :
    Option (Nat → Nat → K) :=
  forLoop n (fun i s => s.bind (gaussJordanStep n i)) (some augmented)

/-- The function `gaussJordan(A, B, X, n)`: `some X'` is the content of the output array
`X` when the call comes back, `none` is the fatal singular-matrix exit. -/
def gaussJordan (A : Nat → Nat → K) (B : Nat → K) (X : Nat → K) (n : Nat) :
    Option (Nat → K) :=
  let augmented := gaussJordanInit A B n
  match gaussJordanEliminationLoop n augmented with
  | none => none
  | some augmented => some (forLoop n (fun i X => setAt X i (augmented i n)) X)

/-- The matrix `A` that `polynomialRegression` hands to `gaussJordan`: allocated, zeroed
over `0..degree`, then filled with `A[i][j] += pow(x[k], i + j)`. -/
def polynomialRegressionA (x : Nat → K) (n degree : Nat) : Nat → Nat → K :=
  let A : Nat → Nat → K := allocateMatrix (degree + 1) (degree + 1)
  let A := forLoop (degree + 1) (fun i A => forLoop (degree + 1) (fun j A => setCell A i j 0) A) A
  forLoop (degree + 1)
    (fun i A =>
      forLoop (degree + 1)
        (fun j A => forLoop n (fun k A => setCell A i j (A i j + x k ^ (i + j))) A)
        A)
    A

/-- The vector `B` that `polynomialRegression` hands to `gaussJordan`: allocated (the
block from `malloc` is taken zero-filled), zeroed over `0..degree`, then filled with
`B[i] += y[k] * pow(x[k], i)`. -/
def polynomialRegressionB (x y : Nat → K) (n degree : Nat) : Nat → K :=
  let B : Nat → K := fun _ => 0
  let B := forLoop (degree + 1) (fun i B => setAt B i 0) B
  forLoop (degree + 1)
    (fun i B => forLoop n (fun k B => setAt B i (B i + y k * x k ^ i)) B)
    B

/-- The function `polynomialRegression(x, y, n, coef, degree)`: `some coef'` is the
content of `coef` when the call comes back, `none` the fatal exit inside `gaussJordan`. -/
def polynomialRegression (x y : Nat → K) (n : Nat) (coef : Nat → K) (degree : Nat) :
    Option (Nat → K) :=
  gaussJordan (polynomialRegressionA x n degree) (polynomialRegressionB x y n degree) coef
    (degree + 1)

/-- The function `evaluatePolynomial(x, coef, degree)`. -/
def evaluatePolynomial (x : K) (coef : Nat → K) (degree : Nat) : K :=
  forLoop (degree + 1) (fun i result => result + coef i * x ^ i) 0

/-- The value stored in `new_data[..].percentage` by the prediction loop of `main`
(polynomial program) for one missing year. -/
def predictedPercentage (coef_internet : Nat → K) (degree_internet : Nat)
    (year base_year : Int) : K :=
  let normalized_year : K := ((year - base_year : Int) : K)
  let predicted_percentage := evaluatePolynomial normalized_year coef_internet degree_internet
  let predicted_percentage := if predicted_percentage < 0 then 0 else predicted_percentage
  let predicted_percentage := if predicted_percentage > 100 then 100 else predicted_percentage
  predicted_percentage

/-- The value stored in `new_data[..].population` by the prediction loop of `main`
(polynomial program) for one missing year. -/
def predictedPopulation (coef_population : Nat → K) (degree_population : Nat)
    (year base_year : Int) : K :=
  let normalized_year : K := ((year - base_year : Int) : K)
  let predicted_population := evaluatePolynomial normalized_year coef_population degree_population
  let predicted_population := if predicted_population < 0 then 0 else predicted_population
  predicted_population

/-- The caller's arrays around a call of `gaussJordan`. -/
structure SolverArrays (K : Type) where
  A : Nat → Nat → K
  B : Nat → K
  X : Nat → K

/-- The call `gaussJordan(A, B, X, n)` as a change of the caller's arrays, with the flag
`true` when the call comes back and `false` on `exit(1)`. The body stores into the local
`augmented` and, once the elimination loop is over, into `X`; it has no store into `A` or
`B`. -/
def gaussJordanArrays (m : SolverArrays K) (n : Nat) : SolverArrays K × Bool :=
  let augmented := gaussJordanInit m.A m.B n
  match gaussJordanEliminationLoop n augmented with
  | none => (m, false)
  | some augmented =>
    ({ A := m.A, B := m.B, X := forLoop n (fun i X => setAt X i (augmented i n)) m.X }, true)

/-- The caller's arrays `x` and `y` after `exponentialRegression(x, y, n, &a, &b)`: `x` as
the filtering loop leaves it, `y` as it was, since the body only reads `y`. -/
def exponentialRegressionArrays (log exp : K → K) (x y : Nat → K) (n : Nat) :
    (Nat → K) × (Nat → K) :=
  ((exponentialRegression log exp x y n).x, y)

/-! ## Both programs: `normalizeYears` -/

/-- The value of a C `int` expression whose mathematical value is `z`: reduced to
32 bits in two's complement (what the usual targets compute when the subtraction
overflows). -/
def wrapInt32 (z : Int) : Int :=
  (z + 2147483648) % 4294967296 - 2147483648

/-- The two arrays `normalizeYears` works on. -/
structure YearArrays (K : Type) where
  original_years : Nat → Int
  normalized_years : Nat → K

/-- The function `normalizeYears(original_years, normalized_years, n, base_year)`, the same
in both programs: the two arrays as the call leaves them. -/
def normalizeYears (original_years : Nat → Int) (normalized_years : Nat → K) (n : Nat)
    (base_year : Int) : YearArrays K :=
  forLoop n
    (fun i s =>
      { original_years := s.original_years
        normalized_years :=
          setAt s.normalized_years i
            ((wrapInt32 (s.original_years i - base_year) : Int) : K) })
    { original_years := original_years, normalized_years := normalized_years }

/-! ## Vocabulary of the statements -/

/-- The vector `v` (of length `n + 1`) is annihilated by each of the first `n` rows of the
augmented matrix `M`. With `v = (X, -1)` this reads `A·X = B`. -/
def RowSat (n : Nat) (M : Nat → Nat → K) (v : Nat → K) : Prop :=
  ∀ r, r < n → ∑ c in range (n + 1), M r c * v c = 0

/-- Columns `0..i-1` of the first `n` rows of `M` are those of the identity matrix. -/
def ColDone (n i : Nat) (M : Nat → Nat → K) : Prop :=
  ∀ c, c < i → ∀ r, r < n → M r c = if r = c then 1 else 0

/-- Rows `i` and `p` exchanged over the columns `0..n`. -/
def swapRows (M : Nat → Nat → K) (n i p : Nat) : Nat → Nat → K :=
  fun r c => if c < n + 1 then (if r = i then M p c else if r = p then M i c else M r c)
    else M r c

/-- Row `i` divided by `pivot` over the columns `0..n`. -/
def scaleRow (S : Nat → Nat → K) (n i : Nat) (pivot : K) : Nat → Nat → K :=
  fun r c => if r = i ∧ c < n + 1 then S i c / pivot else S r c

/-- Every row `r < n` other than `i` has `N r i` times row `i` subtracted from it. -/
def clearColumn (N : Nat → Nat → K) (n i : Nat) : Nat → Nat → K :=
  fun r c => if r < n ∧ r ≠ i ∧ c < n + 1 then N r c - N r i * N i c else N r c

/-- The square matrix held in the cells `A[0..n-1][0..n-1]`. -/
def toMatrix (A : Nat → Nat → K) (n : Nat) : Matrix (Fin n) (Fin n) K :=
  Matrix.of fun i j => A i.val j.val

/-- The sum of squared residuals of the line `a + b·x` over the first `n` samples. -/
def lineResidual (x y : Nat → K) (n : Nat) (a b : K) : K :=
  ∑ i in range n, (y i - (a + b * x i)) ^ 2

/-- The sum of squared residuals of the polynomial with coefficients `c[0..degree]`. -/
def polyResidual (x y : Nat → K) (n : Nat) (c : Nat → K) (degree : Nat) : K :=
  ∑ k in range n, (y k - ∑ j in range (degree + 1), c j * x k ^ j) ^ 2

/-- The indices `i < n` with `y[i] > 0`, in increasing order. -/
def positiveIndices (y : Nat → K) (n : Nat) : List Nat :=
  (List.range n).filter fun i => decide (y i > 0)

/-- Modelled after the spec's words "Horner evaluation": the nested form
`coef_i + x·(coef_(i+1) + x·(... + x·coef_(i+k)))`. -/
def horner (x : K) (coef : Nat → K) : Nat → Nat → K
  | i, 0 => coef i
  | i, k + 1 => coef i + x * horner x coef (i + 1) k

/-- The number of distinct values among `x[0..n-1]`. -/
def distinctCount (x : Nat → K) (n : Nat) : Nat :=
  ((range n).image x).card

/-- The map `σ` permutes the indices `0..n-1`. -/
def PermutesBelow (σ : Nat → Nat) (n : Nat) : Prop :=
  (∀ i, i < n → σ i < n) ∧ ∀ i, i < n → ∀ j, j < n → σ i = σ j → i = j

/-! ## Sample inputs -/

/-- The `x` column of the end-to-end scenario `{(0,10),(1,20),(2,40),(3,80)}`. -/
def scenarioX : Nat → K :=
  fun i => ([0, 1, 2, 3] : List K).getD i 0

/-- The `y` column of the end-to-end scenario `{(0,10),(1,20),(2,40),(3,80)}`. -/
def scenarioY : Nat → K :=
  fun i => ([10, 20, 40, 80] : List K).getD i 0

/-- The matrix `[[1, 2], [3, 4]]`. -/
def sampleA : Nat → Nat → ℚ :=
  fun i j => if i = 0 then (if j = 0 then 1 else 2) else (if j = 0 then 3 else 4)

/-- The matrix `[[1, 2], [1, 2]]`, whose two rows are the same. -/
def sampleDup : Nat → Nat → ℚ :=
  fun _ j => if j = 0 then 1 else 2

/-- The right-hand side `[4, 5]`. -/
def sampleB : Nat → ℚ :=
  fun i => if i = 0 then 4 else 5

/-- The abscissas `0, 1, 2` (and `0` beyond). -/
def sampleX : Nat → ℚ :=
  fun i => if i = 1 then 1 else if i = 2 then 2 else 0

/-- The ordinates `1, 3, 5` of the line `1 + 2x` at `sampleX` (and `0` beyond). -/
def sampleY : Nat → ℚ :=
  fun i => if i = 0 then 1 else if i = 1 then 3 else if i = 2 then 5 else 0

/-- The coefficients `1, 2` of the line `1 + 2x` (and `0` beyond). -/
def sampleC : Nat → ℚ :=
  fun j => if j = 0 then 1 else if j = 1 then 2 else 0

/-- The abscissas of a sample set whose `x` values are all `1`. -/
def sampleFlat : Nat → ℚ :=
  fun _ => 1

/-- The abscissas `0, 1` (and `0` beyond) of a sample set whose first `y` is negative. -/
def sampleSkipX : Nat → ℚ :=
  fun i => if i = 1 then 1 else 0

/-- The ordinates `-1, 1` (and `0` beyond): only the second sample has `y > 0`. -/
def sampleSkipY : Nat → ℚ :=
  fun i => if i = 0 then -1 else if i = 1 then 1 else 0

/-- The `1×1` matrix `[[1e-11]]`. -/
def sampleTinyA : Nat → Nat → ℚ :=
  fun _ _ => 1 / 10 ^ 11

/-- The right-hand side `[1e-11]`. -/
def sampleTinyB : Nat → ℚ :=
  fun _ => 1 / 10 ^ 11

/-- A year array whose first entry is `INT_MIN`. -/
def sampleYearsMin : Nat → Int :=
  fun _ => -2147483648

/-- The year array `2001, 2002, 2003, ...`. -/
def sampleYears : Nat → Int :=
  fun i => 2001 + (i : Int)

/-- The exchange of the indices `0` and `1`. -/
def sampleSwap : Nat → Nat :=
  fun i => if i = 0 then 1 else if i = 1 then 0 else i

/-! ## Loops in closed form -/

theorem forLoop_succ {σ : Type} (n : Nat) (body : Nat → σ → σ) (s : σ) :
    forLoop (n + 1) body s = body n (forLoop n body s) := rfl

theorem forLoop_zero {σ : Type} (body : Nat → σ → σ) (s : σ) :
    forLoop 0 body s = s := rfl

/-- A loop that stores into the cells `(j, 0), ..., (j, m-1)` one after the other, when
the stored value only depends on cells the loop has not yet written. -/
theorem forLoop_setCell_row (m j : Nat) (h : Nat → (Nat → Nat → K) → K) (v : Nat → K)
    (M0 : Nat → Nat → K)
    (hv : ∀ k, k < m → ∀ M : Nat → Nat → K,
      (∀ r c, ¬(r = j ∧ c < k) → M r c = M0 r c) → h k M = v k) :
    forLoop m (fun k M => setCell M j k (h k M)) M0 =
      fun r c => if r = j ∧ c < m then v c else M0 r c := by
  induction m with
  | zero => funext r c; simp [forLoop]
  | succ m ih =>
    rw [forLoop_succ, ih fun k hk => hv k (Nat.lt_succ_of_lt hk)]
    have e := hv m (Nat.lt_succ_self m) (fun r c => if r = j ∧ c < m then v c else M0 r c)
      (by intro r c hrc; simp only [if_neg hrc])
    simp only [e]
    funext r c
    simp only [setCell]
    by_cases h1 : r = j
    · by_cases h2 : c = m
      · simp [h1, h2]
      · have : c < m + 1 ↔ c < m := by omega
        simp [h1, h2, this]
    · simp [h1]

theorem forLoop_setAt (m : Nat) (h : Nat → (Nat → K) → K) (v : Nat → K) (a0 : Nat → K)
    (hv : ∀ k, k < m → ∀ a : Nat → K, (∀ c, ¬ c < k → a c = a0 c) → h k a = v k) :
    forLoop m (fun k a => setAt a k (h k a)) a0 = fun c => if c < m then v c else a0 c := by
  induction m with
  | zero => funext c; simp [forLoop]
  | succ m ih =>
    rw [forLoop_succ, ih fun k hk => hv k (Nat.lt_succ_of_lt hk)]
    have e := hv m (Nat.lt_succ_self m) (fun c => if c < m then v c else a0 c)
      (by intro c hc; simp only [if_neg hc])
    simp only [e]
    funext c
    simp only [setAt]
    by_cases h2 : c = m
    · simp [h2]
    · have : c < m + 1 ↔ c < m := by omega
      simp [h2, this]

theorem gaussJordanInit_eq (A : Nat → Nat → K) (B : Nat → K) (n : Nat) :
    gaussJordanInit A B n =
      fun r c => if r < n then (if c < n then A r c else if c = n then B r else 0) else 0 := by
  unfold gaussJordanInit
  suffices H : ∀ m, forLoop m
      (fun i augmented =>
        let augmented := forLoop n (fun j augmented => setCell augmented i j (A i j)) augmented
        setCell augmented i n (B i))
      (allocateMatrix n (n + 1)) =
      fun r c => if r < m then (if c < n then A r c else if c = n then B r else 0) else 0 from H n
  intro m
  induction m with
  | zero => funext r c; simp [forLoop, allocateMatrix]
  | succ m ih =>
    rw [forLoop_succ, ih]
    simp only
    rw [forLoop_setCell_row n m (fun j _ => A m j) (fun j => A m j) _ (fun _ _ _ _ => rfl)]
    funext r c
    simp only [setCell]
    by_cases h1 : r = m
    · subst h1
      by_cases h2 : c = n
      · simp [h2]
      · by_cases h3 : c < n <;> simp [h2, h3]
    · have : r < m + 1 ↔ r < m := by omega
      simp [h1, this]

theorem gaussJordanSwap_eq (M : Nat → Nat → K) (i p n : Nat) :
    gaussJordanSwap M i p n = swapRows M n i p := by
  unfold gaussJordanSwap swapRows
  by_cases hp : p = i
  · subst hp
    funext r c
    by_cases h : r = p <;> simp [h]
  · rw [if_pos hp]
    generalize n + 1 = m
    induction m with
    | zero => funext r c; simp [forLoop]
    | succ m ih =>
      rw [forLoop_succ, ih]
      funext r c
      simp only [setCell]
      have hip : ¬ i = p := fun h => hp h.symm
      by_cases h2 : c = m
      · subst h2
        by_cases h1 : r = i
        · subst h1; simp [hp, hip]
        · by_cases h3 : r = p
          · subst h3; simp [hp, hip]
          · simp [h1, h3]
      · have : c < m + 1 ↔ c < m := by omega
        simp [h2, this]

theorem gaussJordanNormalize_eq (M : Nat → Nat → K) (i n : Nat) (pivot : K) :
    gaussJordanNormalize M i n pivot = scaleRow M n i pivot := by
  unfold gaussJordanNormalize scaleRow
  exact forLoop_setCell_row (n + 1) i (fun j M => M i j / pivot) (fun c => M i c / pivot) M
    (fun k _ M' hM => by simp only; rw [hM i k (by omega)])

theorem gaussJordanEliminate_eq (M : Nat → Nat → K) (i n : Nat) :
    gaussJordanEliminate M i n = clearColumn M n i := by
  unfold gaussJordanEliminate clearColumn
  suffices H : ∀ m, forLoop m
      (fun j augmented =>
        if j ≠ i then
          let factor := augmented j i
          forLoop (n + 1)
            (fun k augmented => setCell augmented j k (augmented j k - factor * augmented i k))
            augmented
        else augmented) M =
      fun r c => if r < m ∧ r ≠ i ∧ c < n + 1 then M r c - M r i * M i c else M r c from H n
  intro m
  induction m with
  | zero => funext r c; simp [forLoop]
  | succ m ih =>
    rw [forLoop_succ, ih]
    by_cases hmi : m = i
    · subst hmi
      simp only [ne_eq, not_true_eq_false, if_false]
      funext r c
      by_cases h : r = m
      · simp [h]
      · have : r < m + 1 ↔ r < m := by omega
        simp [this]
    · simp only [ne_eq, hmi, not_false_eq_true, if_true]
      rw [forLoop_setCell_row (n + 1) m _ (fun c => M m c - M m i * M i c) _
        (fun k _ M' hM => by
          simp only
          rw [hM m k (by omega), hM i k (by intro h; exact hmi h.1.symm)]
          simp)]
      funext r c
      by_cases h : r = m
      · subst h; simp [hmi]
      · have : r < m + 1 ↔ r < m := by omega
        simp [h, this]

/-! ## The straight-line fit -/

theorem linearRegressionSums_eq (x y : Nat → K) (n : Nat) :
    linearRegressionSums x y n =
      { sum_x := ∑ i in range n, x i
        sum_y := ∑ i in range n, y i
        sum_xy := ∑ i in range n, x i * y i
        sum_x2 := ∑ i in range n, x i * x i } := by
  induction n with
  | zero => rfl
  | succ k ih =>
    unfold linearRegressionSums at ih ⊢
    rw [forLoop_succ, ih]
    simp only [sum_range_succ]

theorem linearRegressionDenominator_eq (x y : Nat → K) (n : Nat) :
    linearRegressionDenominator x y n =
      (n : K) * (∑ i in range n, x i * x i) - (∑ i in range n, x i) * (∑ i in range n, x i) := by
  simp only [linearRegressionDenominator, linearRegressionSums_eq]

/-- Twice the divisor is the sum of the squared pairwise differences. -/
theorem two_mul_denominator (x y : Nat → K) (n : Nat) :
    2 * linearRegressionDenominator x y n =
      ∑ i in range n, ∑ j in range n, (x i - x j) ^ 2 := by
  rw [linearRegressionDenominator_eq]
  have h : ∀ i j, (x i - x j) ^ 2 = x i * x i - 2 * (x i * x j) + x j * x j := by
    intro i j; ring
  simp only [h, sum_add_distrib, sum_sub_distrib, sum_const, card_range, ← mul_sum,
    ← sum_mul, nsmul_eq_mul]
  ring

theorem denominator_nonneg (x y : Nat → K) (n : Nat) :
    0 ≤ linearRegressionDenominator x y n := by
  have h := two_mul_denominator x y n
  have h2 : 0 ≤ ∑ i in range n, ∑ j in range n, (x i - x j) ^ 2 :=
    sum_nonneg fun i _ => sum_nonneg fun j _ => sq_nonneg _
  linarith

theorem denominator_eq_zero_iff (x y : Nat → K) (n : Nat) :
    linearRegressionDenominator x y n = 0 ↔ ∀ i < n, ∀ j < n, x i = x j := by
  have h := two_mul_denominator x y n
  constructor
  · intro h0 i hi j hj
    rw [h0, mul_zero] at h
    have h1 := (sum_eq_zero_iff_of_nonneg
      (fun i _ => sum_nonneg fun j _ => sq_nonneg (x i - x j))).1 h.symm i (mem_range.2 hi)
    have h2 := (sum_eq_zero_iff_of_nonneg
      (fun j _ => sq_nonneg (x i - x j))).1 h1 j (mem_range.2 hj)
    exact sub_eq_zero.1 ((pow_eq_zero_iff (two_ne_zero)).1 h2)
  · intro hall
    have : ∑ i in range n, ∑ j in range n, (x i - x j) ^ 2 = 0 := by
      apply sum_eq_zero; intro i hi; apply sum_eq_zero; intro j hj
      rw [hall i (mem_range.1 hi) j (mem_range.1 hj)]; ring
    rw [this] at h
    linarith

theorem denominator_pos (x y : Nat → K) (n : Nat)
    (hx : ∃ i < n, ∃ j < n, x i ≠ x j) : 0 < linearRegressionDenominator x y n := by
  rcases hx with ⟨i, hi, j, hj, hne⟩
  refine lt_of_le_of_ne (denominator_nonneg x y n) fun h0 => hne ?_
  exact (denominator_eq_zero_iff x y n).1 h0.symm i hi j hj

/-- A residual orthogonal to a perturbation cannot be shortened by it. -/
theorem sum_sq_le_of_orthogonal (n : Nat) (r d : Nat → K)
    (h : ∑ k in range n, r k * d k = 0) :
    ∑ k in range n, r k ^ 2 ≤ ∑ k in range n, (r k - d k) ^ 2 := by
  have e : ∑ k in range n, (r k - d k) ^ 2 =
      ∑ k in range n, r k ^ 2 - 2 * ∑ k in range n, r k * d k + ∑ k in range n, d k ^ 2 := by
    rw [mul_sum, ← sum_sub_distrib, ← sum_add_distrib]
    exact sum_congr rfl fun k _ => by ring
  have hd : 0 ≤ ∑ k in range n, d k ^ 2 := sum_nonneg fun k _ => sq_nonneg _
  rw [e, h]
  linarith

theorem linearRegression_snd (x y : Nat → K) (n : Nat) :
    (linearRegression x y n).2 =
      ((n : K) * (∑ i in range n, x i * y i) - (∑ i in range n, x i) * (∑ i in range n, y i)) /
        ((n : K) * (∑ i in range n, x i * x i) - (∑ i in range n, x i) * (∑ i in range n, x i)) := by
  simp only [linearRegression, linearRegressionDenominator_eq, linearRegressionSums_eq]

theorem linearRegression_fst (x y : Nat → K) (n : Nat) :
    (linearRegression x y n).1 =
      ((∑ i in range n, y i) - (linearRegression x y n).2 * (∑ i in range n, x i)) / (n : K) := by
  simp only [linearRegression, linearRegressionDenominator_eq, linearRegressionSums_eq]

/-- The normal equations of the straight-line fit, when both divisors are non-zero. -/
theorem linearRegression_normal (x y : Nat → K) (n : Nat) (hn : (n : K) ≠ 0)
    (hD : linearRegressionDenominator x y n ≠ 0) :
    (∑ i in range n, (y i - ((linearRegression x y n).1 + (linearRegression x y n).2 * x i)) = 0) ∧
    (∑ i in range n,
      (y i - ((linearRegression x y n).1 + (linearRegression x y n).2 * x i)) * x i = 0) := by
  have ha := linearRegression_fst x y n
  have hb := linearRegression_snd x y n
  rw [linearRegressionDenominator_eq] at hD
  set a := (linearRegression x y n).1
  set b := (linearRegression x y n).2
  set Sx := ∑ i in range n, x i
  set Sy := ∑ i in range n, y i
  set Sxy := ∑ i in range n, x i * y i
  set Sxx := ∑ i in range n, x i * x i
  have ha' : a * n = Sy - b * Sx := by rw [ha]; field_simp
  have hb' : b * ((n : K) * Sxx - Sx * Sx) = n * Sxy - Sx * Sy := by rw [hb]; field_simp
  have e1 : ∑ i in range n, (y i - (a + b * x i)) = Sy - a * n - b * Sx := by
    simp only [sum_sub_distrib, sum_add_distrib, sum_const, card_range, ← mul_sum, nsmul_eq_mul]
    ring
  have e2 : ∑ i in range n, (y i - (a + b * x i)) * x i = Sxy - a * Sx - b * Sxx := by
    have : ∀ i, (y i - (a + b * x i)) * x i = x i * y i - (a * x i + b * (x i * x i)) := by
      intro i; ring
    simp only [this, sum_sub_distrib, sum_add_distrib, ← mul_sum]
    ring
  refine ⟨by rw [e1]; linarith, ?_⟩
  rw [e2]
  have : (n : K) * (Sxy - a * Sx - b * Sxx) = 0 := by
    have : (n : K) * (Sxy - a * Sx - b * Sxx) =
        (n * Sxy - Sx * Sy) - b * ((n : K) * Sxx - Sx * Sx) + Sx * (Sy - b * Sx - a * n) := by ring
    rw [this, hb', ha']; ring
  rcases mul_eq_zero.1 this with h | h
  · exact absurd h hn
  · exact h

theorem natCast_ne_zero_of_two_le (n : Nat) (hn : 2 ≤ n) : (n : K) ≠ 0 :=
  Nat.cast_ne_zero.2 (by omega)

/-- The pair returned by `linearRegression` is a minimiser of the squared residual. -/
theorem linearRegression_min_aux (x y : Nat → K) (n : Nat) (hn : 2 ≤ n)
    (hx : ∃ i < n, ∃ j < n, x i ≠ x j) :
    (linearRegression x y n).2 =
        ((n : K) * (∑ i in range n, x i * y i) - (∑ i in range n, x i) * (∑ i in range n, y i)) /
          ((n : K) * (∑ i in range n, x i * x i) - (∑ i in range n, x i) * (∑ i in range n, x i)) ∧
      (linearRegression x y n).1 =
        ((∑ i in range n, y i) - (linearRegression x y n).2 * (∑ i in range n, x i)) / (n : K) ∧
      ∀ a' b' : K,
        ∑ i in range n, (y i - ((linearRegression x y n).1 + (linearRegression x y n).2 * x i)) ^ 2 ≤
          ∑ i in range n, (y i - (a' + b' * x i)) ^ 2 := by
  refine ⟨linearRegression_snd x y n, linearRegression_fst x y n, fun a' b' => ?_⟩
  obtain ⟨h1, h2⟩ := linearRegression_normal x y n (natCast_ne_zero_of_two_le n hn)
    (denominator_pos x y n hx).ne'
  set a := (linearRegression x y n).1
  set b := (linearRegression x y n).2
  have key := sum_sq_le_of_orthogonal n (fun i => y i - (a + b * x i))
    (fun i => (a' - a) + (b' - b) * x i) (by
      have : ∀ i, (y i - (a + b * x i)) * ((a' - a) + (b' - b) * x i) =
          (a' - a) * (y i - (a + b * x i)) + (b' - b) * ((y i - (a + b * x i)) * x i) := by
        intro i; ring
      simp only [this, sum_add_distrib, ← mul_sum, h1, h2]
      ring)
  refine le_of_le_of_eq key (sum_congr rfl fun i _ => ?_)
  ring

/-! ## Invariants of the elimination loop -/

/-- The pivot search returns a row between `i` and `n - 1`. -/
theorem gaussJordanMaxRow_bounds (M : Nat → Nat → K) (i n : Nat) :
    i ≤ gaussJordanMaxRow M i n ∧ (gaussJordanMaxRow M i n < n ∨ gaussJordanMaxRow M i n = i) := by
  unfold gaussJordanMaxRow forLoopFrom
  simp only
  have H : ∀ m, i ≤ forLoop m (fun t max_row =>
      if |M (i + 1 + t) i| > |M max_row i| then i + 1 + t else max_row) i ∧
      forLoop m (fun t max_row =>
      if |M (i + 1 + t) i| > |M max_row i| then i + 1 + t else max_row) i ≤ i + m := by
    intro m
    induction m with
    | zero => simp [forLoop]
    | succ m ih =>
      rw [forLoop_succ]
      split_ifs
      · omega
      · omega
  have := H (n - (i + 1))
  omega

theorem rowSat_swapRows (M : Nat → Nat → K) (n i p : Nat) (v : Nat → K) (hi : i < n)
    (hp : p < n) : RowSat n (swapRows M n i p) v ↔ RowSat n M v := by
  unfold swapRows
  have e : ∀ r, ∑ c in range (n + 1), (if c < n + 1 then (if r = i then M p c
      else if r = p then M i c else M r c) else M r c) * v c =
      ∑ c in range (n + 1), (if r = i then M p c else if r = p then M i c else M r c) * v c := by
    intro r
    exact sum_congr rfl fun c hc => by rw [if_pos (mem_range.1 hc)]
  simp only [RowSat, e]
  constructor
  · intro h r hr
    by_cases h1 : r = i
    · subst h1
      have := h p hp
      by_cases h2 : p = r
      · subst h2; simpa using this
      · simpa [h2] using this
    · by_cases h2 : r = p
      · subst h2
        simpa using h i hi
      · simpa [h1, h2] using h r hr
  · intro h r hr
    by_cases h1 : r = i
    · simpa [h1] using h p hp
    · by_cases h2 : r = p
      · subst h2
        simpa [h1] using h i hi
      · simpa [h1, h2] using h r hr

theorem rowSat_scaleRow (S : Nat → Nat → K) (n i : Nat) (pivot : K) (v : Nat → K)
    (hpiv : pivot ≠ 0) : RowSat n (scaleRow S n i pivot) v ↔ RowSat n S v := by
  unfold scaleRow
  have e : ∀ r, ∑ c in range (n + 1), (if r = i ∧ c < n + 1 then S i c / pivot else S r c) * v c =
      if r = i then (∑ c in range (n + 1), S i c * v c) / pivot
      else ∑ c in range (n + 1), S r c * v c := by
    intro r
    by_cases h1 : r = i
    · rw [if_pos h1, sum_div]
      exact sum_congr rfl fun c hc => by
        rw [if_pos ⟨h1, mem_range.1 hc⟩]; ring
    · rw [if_neg h1]
      exact sum_congr rfl fun c _ => by simp [h1]
  simp only [RowSat, e]
  constructor
  · intro h r hr
    have := h r hr
    by_cases h1 : r = i
    · subst h1
      rw [if_pos rfl, div_eq_zero_iff] at this
      exact this.resolve_right hpiv
    · rwa [if_neg h1] at this
  · intro h r hr
    by_cases h1 : r = i
    · subst h1
      rw [if_pos rfl, h r hr, zero_div]
    · rw [if_neg h1]; exact h r hr

theorem rowSat_clearColumn (N : Nat → Nat → K) (n i : Nat) (v : Nat → K) (hi : i < n) :
    RowSat n (clearColumn N n i) v ↔ RowSat n N v := by
  unfold clearColumn
  have e : ∀ r, r < n → ∑ c in range (n + 1),
      (if r < n ∧ r ≠ i ∧ c < n + 1 then N r c - N r i * N i c else N r c) * v c =
      if r = i then ∑ c in range (n + 1), N i c * v c
      else (∑ c in range (n + 1), N r c * v c) - N r i * ∑ c in range (n + 1), N i c * v c := by
    intro r hr
    by_cases h1 : r = i
    · rw [if_pos h1]
      exact sum_congr rfl fun c _ => by simp [h1]
    · rw [if_neg h1, mul_sum, ← sum_sub_distrib]
      exact sum_congr rfl fun c hc => by
        rw [if_pos ⟨hr, h1, mem_range.1 hc⟩]; ring
  constructor
  · intro h r hr
    have hrow := h i hi
    rw [e i hi, if_pos rfl] at hrow
    by_cases h1 : r = i
    · subst h1; exact hrow
    · have := h r hr
      rw [e r hr, if_neg h1, hrow, mul_zero, sub_zero] at this
      exact this
  · intro h r hr
    rw [e r hr]
    by_cases h1 : r = i
    · rw [if_pos h1]; exact h i hi
    · rw [if_neg h1, h r hr, h i hi]; ring

theorem colDone_swapRows (M : Nat → Nat → K) (n i p : Nat) (hi : i < n) (hip : i ≤ p)
    (hp : p < n) (h : ColDone n i M) : ColDone n i (swapRows M n i p) := by
  intro c hc r hr
  have hcn : c < n + 1 := by omega
  simp only [swapRows, if_pos hcn]
  by_cases h1 : r = i
  · subst h1
    rw [if_pos rfl, h c hc p hp, if_neg (by omega), if_neg (by omega)]
  · rw [if_neg h1]
    by_cases h2 : r = p
    · subst h2
      rw [if_pos rfl, h c hc i hi, if_neg (by omega), if_neg (by omega)]
    · rw [if_neg h2, h c hc r hr]

theorem colDone_scaleRow (S : Nat → Nat → K) (n i : Nat) (pivot : K) (hi : i < n)
    (h : ColDone n i S) : ColDone n i (scaleRow S n i pivot) := by
  intro c hc r hr
  simp only [scaleRow]
  by_cases h1 : r = i
  · subst h1
    rw [if_pos ⟨rfl, by omega⟩, h c hc r hr, if_neg (by omega), zero_div]
  · rw [if_neg (fun hh => h1 hh.1), h c hc r hr]

theorem colDone_clearColumn (N : Nat → Nat → K) (n i : Nat) (hi : i < n)
    (h : ColDone n i N) (hpiv : N i i = 1) : ColDone n (i + 1) (clearColumn N n i) := by
  intro c hc r hr
  have hcn : c < n + 1 := by omega
  simp only [clearColumn]
  by_cases h1 : r = i
  · subst h1
    rw [if_neg (fun hh => hh.2.1 rfl)]
    by_cases h2 : c = r
    · subst h2; rw [hpiv, if_pos rfl]
    · exact h c (by omega) r hr
  · rw [if_pos ⟨hr, h1, hcn⟩]
    by_cases h2 : c = i
    · subst h2
      rw [hpiv, mul_one, sub_self, if_neg h1]
    · have hci : c < i := by omega
      have hic : ¬ i = c := fun hh => h2 hh.symm
      rw [h c hci r hr, h c hci i hi, if_neg hic, mul_zero, sub_zero]

theorem pivotTolerance_pos : (0 : K) < pivotTolerance := by
  unfold pivotTolerance
  positivity

/-- One pass of the elimination loop in closed form. -/
theorem gaussJordanStep_eq (n i : Nat) (M : Nat → Nat → K) :
    gaussJordanStep n i M =
      if |swapRows M n i (gaussJordanMaxRow M i n) i i| < pivotTolerance then none
      else some (clearColumn (scaleRow (swapRows M n i (gaussJordanMaxRow M i n)) n i
        (swapRows M n i (gaussJordanMaxRow M i n) i i)) n i) := by
  simp only [gaussJordanStep, gaussJordanSwap_eq, gaussJordanNormalize_eq,
    gaussJordanEliminate_eq]

/-- A pass that comes through finishes one more column. -/
theorem colDone_step (n i : Nat) (M M' : Nat → Nat → K) (hi : i < n)
    (h : gaussJordanStep n i M = some M') (hc : ColDone n i M) : ColDone n (i + 1) M' := by
  rw [gaussJordanStep_eq] at h
  split_ifs at h with hpiv
  obtain ⟨h1, h2⟩ := gaussJordanMaxRow_bounds M i n
  have hp : gaussJordanMaxRow M i n < n := by omega
  rw [Option.some.injEq] at h
  subst h
  set p := gaussJordanMaxRow M i n
  have hpiv0 : swapRows M n i p i i ≠ 0 := by
    intro h0
    rw [h0, abs_zero] at hpiv
    exact hpiv pivotTolerance_pos
  refine colDone_clearColumn _ n i hi
    (colDone_scaleRow _ n i _ hi (colDone_swapRows M n i p hi h1 hp hc)) ?_
  have hin : i < n + 1 := by omega
  simp only [scaleRow, hin, and_self, if_true]
  exact div_self hpiv0

/-- A pass that comes through keeps the solution set of the augmented system. -/
theorem rowSat_step (n i : Nat) (M M' : Nat → Nat → K) (v : Nat → K) (hi : i < n)
    (h : gaussJordanStep n i M = some M') : RowSat n M' v ↔ RowSat n M v := by
  rw [gaussJordanStep_eq] at h
  split_ifs at h with hpiv
  obtain ⟨h1, h2⟩ := gaussJordanMaxRow_bounds M i n
  have hp : gaussJordanMaxRow M i n < n := by omega
  rw [Option.some.injEq] at h
  subst h
  set p := gaussJordanMaxRow M i n
  have hpiv0 : swapRows M n i p i i ≠ 0 := by
    intro h0
    rw [h0, abs_zero] at hpiv
    exact hpiv pivotTolerance_pos
  rw [rowSat_clearColumn _ n i v hi, rowSat_scaleRow _ n i _ v hpiv0,
    rowSat_swapRows M n i p v hi hp]

/-! ## What a completed elimination gives -/

/-- The elimination loop cut after `m` columns. -/
theorem eliminationLoop_invariant (n : Nat) (M0 : Nat → Nat → K) (m : Nat) (hm : m ≤ n)
    (M : Nat → Nat → K)
    (h : forLoop m (fun i s => s.bind (gaussJordanStep n i)) (some M0) = some M) :
    ColDone n m M ∧ ∀ v, RowSat n M v ↔ RowSat n M0 v := by
  induction m generalizing M with
  | zero =>
    rw [forLoop_zero, Option.some.injEq] at h
    subst h
    exact ⟨fun c hc => absurd hc (Nat.not_lt_zero c), fun v => Iff.rfl⟩
  | succ m ih =>
    rw [forLoop_succ] at h
    cases hprev : forLoop m (fun i s => s.bind (gaussJordanStep n i)) (some M0) with
    | none => rw [hprev] at h; simp at h
    | some M1 =>
      rw [hprev, Option.some_bind] at h
      obtain ⟨hc, hr⟩ := ih (by omega) M1 hprev
      exact ⟨colDone_step n m M1 M (by omega) h hc,
        fun v => (rowSat_step n m M1 M v (by omega) h).trans (hr v)⟩

theorem gaussJordan_eq_some (A : Nat → Nat → K) (B X X' : Nat → K) (n : Nat)
    (h : gaussJordan A B X n = some X') :
    ∃ M, gaussJordanEliminationLoop n (gaussJordanInit A B n) = some M ∧
      X' = fun c => if c < n then M c n else X c := by
  unfold gaussJordan at h
  simp only at h
  cases hM : gaussJordanEliminationLoop n (gaussJordanInit A B n) with
  | none => rw [hM] at h; simp at h
  | some M =>
    rw [hM] at h
    simp only [Option.some.injEq] at h
    refine ⟨M, rfl, ?_⟩
    rw [← h]
    exact forLoop_setAt n (fun k _ => M k n) (fun k => M k n) X (fun _ _ _ _ => rfl)

theorem gaussJordan_eq_none (A : Nat → Nat → K) (B X : Nat → K) (n : Nat)
    (h : gaussJordanEliminationLoop n (gaussJordanInit A B n) = none) :
    gaussJordan A B X n = none := by
  unfold gaussJordan
  simp only [h]

/-- The rows of `[A|B]` annihilate `v` exactly when `A·v = v_n·(-B)`. -/
theorem rowSat_init (A : Nat → Nat → K) (B : Nat → K) (n : Nat) (v : Nat → K) :
    RowSat n (gaussJordanInit A B n) v ↔
      ∀ r, r < n → ∑ c in range n, A r c * v c + B r * v n = 0 := by
  rw [gaussJordanInit_eq]
  unfold RowSat
  refine forall_congr' fun r => forall_congr' fun hr => ?_
  rw [sum_range_succ]
  have e : ∑ c in range n, (if r < n then (if c < n then A r c else if c = n then B r else 0)
      else 0) * v c = ∑ c in range n, A r c * v c :=
    sum_congr rfl fun c hc => by rw [if_pos hr, if_pos (mem_range.1 hc)]
  rw [e]
  simp only [if_pos hr, if_neg (lt_irrefl n), if_true]

/-- Once every column is done, the rows annihilate `v` exactly when `v_r = -M[r][n]·v_n`. -/
theorem rowSat_of_colDone (M : Nat → Nat → K) (n : Nat) (v : Nat → K) (h : ColDone n n M) :
    RowSat n M v ↔ ∀ r, r < n → v r + M r n * v n = 0 := by
  unfold RowSat
  refine forall_congr' fun r => forall_congr' fun hr => ?_
  rw [sum_range_succ]
  have e : ∑ c in range n, M r c * v c = v r := by
    rw [sum_congr rfl fun c hc => by rw [h c (mem_range.1 hc) r hr]]
    simp only [ite_mul, one_mul, zero_mul]
    rw [sum_ite_eq (range n) r, if_pos (mem_range.2 hr)]
  rw [e]

/-- What `gaussJordan` returns solves the system it was given. -/
theorem gaussJordan_sound (A : Nat → Nat → K) (B X X' : Nat → K) (n : Nat)
    (h : gaussJordan A B X n = some X') :
    ∀ i, i < n → ∑ j in range n, A i j * X' j = B i := by
  obtain ⟨M, hM, hX⟩ := gaussJordan_eq_some A B X X' n h
  obtain ⟨hc, hr⟩ := eliminationLoop_invariant n (gaussJordanInit A B n) n le_rfl M hM
  have h1 : RowSat n M (fun c => if c < n then X' c else -1) := by
    rw [rowSat_of_colDone M n _ hc]
    intro r hr
    simp only [if_pos hr, if_neg (lt_irrefl n), hX]
    ring
  have h2 := (rowSat_init A B n _).1 ((hr _).1 h1)
  intro i hi
  have h3 := h2 i hi
  simp only [if_neg (lt_irrefl n)] at h3
  have e : ∑ c in range n, A i c * (if c < n then X' c else -1) = ∑ c in range n, A i c * X' c :=
    sum_congr rfl fun c hc => by rw [if_pos (mem_range.1 hc)]
  rw [e] at h3
  linarith

/-- A system that `gaussJordan` solves has no other solution. -/
theorem gaussJordan_unique (A : Nat → Nat → K) (B X X' : Nat → K) (n : Nat)
    (h : gaussJordan A B X n = some X') (c : Nat → K)
    (hc : ∀ i, i < n → ∑ j in range n, A i j * c j = B i) :
    ∀ i, i < n → X' i = c i := by
  obtain ⟨M, hM, hX⟩ := gaussJordan_eq_some A B X X' n h
  obtain ⟨hcol, hr⟩ := eliminationLoop_invariant n (gaussJordanInit A B n) n le_rfl M hM
  have h1 : RowSat n (gaussJordanInit A B n) (fun k => if k < n then c k else -1) := by
    rw [rowSat_init]
    intro r hr
    simp only [if_neg (lt_irrefl n)]
    have e : ∑ k in range n, A r k * (if k < n then c k else -1) = ∑ k in range n, A r k * c k :=
      sum_congr rfl fun k hk => by rw [if_pos (mem_range.1 hk)]
    rw [e, hc r hr]; ring
  have h2 := (rowSat_of_colDone M n _ hcol).1 ((hr _).2 h1)
  intro i hi
  have h3 := h2 i hi
  simp only [if_pos hi, if_neg (lt_irrefl n)] at h3
  rw [hX]
  simp only [if_pos hi]
  linarith

/-- A matrix on which the elimination loop comes through has a trivial kernel. -/
theorem kernel_trivial_of_some (A : Nat → Nat → K) (B : Nat → K) (n : Nat) (M : Nat → Nat → K)
    (hM : gaussJordanEliminationLoop n (gaussJordanInit A B n) = some M) (w : Nat → K)
    (hw : ∀ r, r < n → ∑ c in range n, A r c * w c = 0) : ∀ r, r < n → w r = 0 := by
  obtain ⟨hcol, hr⟩ := eliminationLoop_invariant n (gaussJordanInit A B n) n le_rfl M hM
  have h1 : RowSat n (gaussJordanInit A B n) (fun k => if k < n then w k else 0) := by
    rw [rowSat_init]
    intro r hr
    simp only [if_neg (lt_irrefl n)]
    have e : ∑ k in range n, A r k * (if k < n then w k else 0) = ∑ k in range n, A r k * w k :=
      sum_congr rfl fun k hk => by rw [if_pos (mem_range.1 hk)]
    rw [e, hw r hr]; ring
  have h2 := (rowSat_of_colDone M n _ hcol).1 ((hr _).2 h1)
  intro i hi
  have h3 := h2 i hi
  simp only [if_pos hi, if_neg (lt_irrefl n)] at h3
  linarith

theorem eliminationLoop_none_of_det (A : Nat → Nat → K) (B : Nat → K) (n : Nat)
    (hdet : (toMatrix A n).det = 0) :
    gaussJordanEliminationLoop n (gaussJordanInit A B n) = none := by
  cases hM : gaussJordanEliminationLoop n (gaussJordanInit A B n) with
  | none => rfl
  | some M =>
    exfalso
    obtain ⟨v, hv0, hv⟩ := Matrix.exists_mulVec_eq_zero_iff.2 hdet
    apply hv0
    have key := kernel_trivial_of_some A B n M hM (fun c => if h : c < n then v ⟨c, h⟩ else 0)
      (by
        intro r hr
        have := congrFun hv ⟨r, hr⟩
        simp only [Matrix.mulVec, Matrix.dotProduct, toMatrix, Matrix.of_apply,
          Pi.zero_apply] at this
        rw [← Fin.sum_univ_eq_sum_range
          (fun c => A r c * (if h : c < n then v ⟨c, h⟩ else 0)) n, ← this]
        exact sum_congr rfl fun j _ => by simp)
    funext j
    have := key j.val j.isLt
    simpa using this

/-! ## The normal equations of the polynomial fit -/

/-- A loop that adds `f k` into the one cell `(i, j)` for `k = 0..n-1`. -/
theorem forLoop_accumCell (n i j : Nat) (f : Nat → K) (M : Nat → Nat → K) :
    forLoop n (fun k A => setCell A i j (A i j + f k)) M =
      setCell M i j (M i j + ∑ k in range n, f k) := by
  induction n with
  | zero =>
    funext r c
    simp only [forLoop, setCell, range_zero, sum_empty, add_zero]
    split_ifs with h
    · rw [h.1, h.2]
    · rfl
  | succ n ih =>
    rw [forLoop_succ, ih, sum_range_succ]
    funext r c
    by_cases h : r = i ∧ c = j <;> simp [setCell, h, add_assoc]

theorem forLoop_accumAt (n i : Nat) (f : Nat → K) (a : Nat → K) :
    forLoop n (fun k B => setAt B i (B i + f k)) a =
      setAt a i (a i + ∑ k in range n, f k) := by
  induction n with
  | zero =>
    funext c
    simp only [forLoop, setAt, range_zero, sum_empty, add_zero]
    split_ifs with h
    · rw [h]
    · rfl
  | succ n ih =>
    rw [forLoop_succ, ih, sum_range_succ]
    funext c
    by_cases h : c = i <;> simp [setAt, h, add_assoc]

/-- A loop over rows whose pass `i` rewrites the cells `(i, 0..C-1)` from row `i` alone. -/
theorem forLoop_rowwise (R C : Nat) (body : Nat → (Nat → Nat → K) → (Nat → Nat → K))
    (w : Nat → Nat → K) (M0 : Nat → Nat → K)
    (hbody : ∀ i M, (∀ c, M i c = M0 i c) →
      body i M = fun r c => if r = i ∧ c < C then w i c else M r c) :
    forLoop R body M0 = fun r c => if r < R ∧ c < C then w r c else M0 r c := by
  induction R with
  | zero => funext r c; simp [forLoop]
  | succ R ih =>
    rw [forLoop_succ, ih, hbody R _ (fun c => by simp)]
    funext r c
    by_cases h1 : r = R
    · subst h1
      by_cases h2 : c < C <;> simp [h2]
    · have : r < R + 1 ↔ r < R := by omega
      simp [h1, this]

theorem polynomialRegressionA_eq (x : Nat → K) (n degree : Nat) :
    polynomialRegressionA x n degree =
      fun r c => if r < degree + 1 ∧ c < degree + 1 then ∑ k in range n, x k ^ (r + c)
        else 0 := by
  unfold polynomialRegressionA
  simp only
  have hzero : forLoop (degree + 1)
      (fun i A => forLoop (degree + 1) (fun j A => setCell A i j 0) A)
      (allocateMatrix (degree + 1) (degree + 1) : Nat → Nat → K) = fun _ _ => 0 := by
    rw [forLoop_rowwise (degree + 1) (degree + 1) _ (fun _ _ => 0) _ (fun i M _ =>
      forLoop_setCell_row (degree + 1) i (fun _ _ => 0) (fun _ => 0) M (fun _ _ _ _ => rfl))]
    funext r c
    simp [allocateMatrix]
  rw [hzero]
  rw [forLoop_rowwise (degree + 1) (degree + 1) _ (fun r c => ∑ k in range n, x k ^ (r + c)) _
    (fun i M hM => by
      simp only [forLoop_accumCell]
      rw [forLoop_setCell_row (degree + 1) i _ (fun c => ∑ k in range n, x k ^ (i + c)) M
        (fun k _ M' hM' => by
          simp only
          rw [hM' i k (by omega), hM k, zero_add])])]

theorem polynomialRegressionB_eq (x y : Nat → K) (n degree : Nat) :
    polynomialRegressionB x y n degree =
      fun r => if r < degree + 1 then ∑ k in range n, y k * x k ^ r else 0 := by
  unfold polynomialRegressionB
  simp only
  have hzero : forLoop (degree + 1) (fun i B => setAt B i 0) (fun _ => (0 : K)) = fun _ => 0 := by
    rw [forLoop_setAt (degree + 1) (fun _ _ => 0) (fun _ => 0) _ (fun _ _ _ _ => rfl)]
    funext c
    simp
  rw [hzero]
  simp only [forLoop_accumAt]
  rw [forLoop_setAt (degree + 1) _ (fun r => ∑ k in range n, y k * x k ^ r) _
    (fun k _ a ha => by
      simp only
      rw [ha k (by omega), zero_add])]

/-- The normal equations hold for whatever `polynomialRegression` returns. -/
theorem polynomialRegression_normal (x y : Nat → K) (n : Nat) (coef coef' : Nat → K)
    (degree : Nat) (h : polynomialRegression x y n coef degree = some coef') :
    ∀ i, i < degree + 1 →
      ∑ j in range (degree + 1), (∑ k in range n, x k ^ (i + j)) * coef' j =
        ∑ k in range n, y k * x k ^ i := by
  intro i hi
  have := gaussJordan_sound _ _ _ _ _ h i hi
  rw [polynomialRegressionA_eq, polynomialRegressionB_eq] at this
  simp only [if_pos hi] at this
  rw [← this]
  exact sum_congr rfl fun j hj => by rw [if_pos ⟨hi, mem_range.1 hj⟩]

/-- The residual of a solution of the normal equations is orthogonal to every power. -/
theorem residual_orthogonal (x y : Nat → K) (n degree : Nat) (c : Nat → K) (i : Nat)
    (h : ∑ j in range (degree + 1), (∑ k in range n, x k ^ (i + j)) * c j =
      ∑ k in range n, y k * x k ^ i) :
    ∑ k in range n, (y k - ∑ j in range (degree + 1), c j * x k ^ j) * x k ^ i = 0 := by
  have e : ∑ k in range n, (y k - ∑ j in range (degree + 1), c j * x k ^ j) * x k ^ i =
      ∑ k in range n, y k * x k ^ i -
        ∑ j in range (degree + 1), (∑ k in range n, x k ^ (i + j)) * c j := by
    simp only [sub_mul, sum_sub_distrib, sum_mul]
    congr 1
    rw [sum_comm]
    exact sum_congr rfl fun j _ => sum_congr rfl fun k _ => by rw [pow_add]; ring
  rw [e, h, sub_self]

/-- A solution of the normal equations has the least squared residual. -/
theorem polynomialRegression_min (x y : Nat → K) (n : Nat) (coef coef' : Nat → K)
    (degree : Nat) (h : polynomialRegression x y n coef degree = some coef') (c : Nat → K) :
    polyResidual x y n coef' degree ≤ polyResidual x y n c degree := by
  have hn := polynomialRegression_normal x y n coef coef' degree h
  unfold polyResidual
  have key := sum_sq_le_of_orthogonal n
    (fun k => y k - ∑ j in range (degree + 1), coef' j * x k ^ j)
    (fun k => ∑ j in range (degree + 1), (c j - coef' j) * x k ^ j) (by
      simp only [mul_sum]
      rw [sum_comm]
      refine sum_eq_zero fun j hj => ?_
      have := residual_orthogonal x y n degree coef' j (hn j (mem_range.1 hj))
      have e : ∑ k in range n, (y k - ∑ j in range (degree + 1), coef' j * x k ^ j) *
          ((c j - coef' j) * x k ^ j) = (c j - coef' j) *
          ∑ k in range n, (y k - ∑ j in range (degree + 1), coef' j * x k ^ j) * x k ^ j := by
        rw [mul_sum]
        exact sum_congr rfl fun k _ => by ring
      rw [e, this, mul_zero])
  refine le_of_le_of_eq key (sum_congr rfl fun k _ => ?_)
  congr 1
  simp only [sub_mul, sum_sub_distrib]
  ring

/-- On exactly polynomial data the generating coefficients are the only possible result. -/
theorem polyFit_recovers (x y : Nat → K) (n : Nat) (coef coef' : Nat → K)
    (degree : Nat) (c : Nat → K)
    (hy : ∀ k, k < n → y k = ∑ j in range (degree + 1), c j * x k ^ j)
    (h : polynomialRegression x y n coef degree = some coef') :
    ∀ j, j < degree + 1 → coef' j = c j := by
  refine gaussJordan_unique _ _ _ _ _ h c fun i hi => ?_
  rw [polynomialRegressionA_eq, polynomialRegressionB_eq]
  simp only [if_pos hi]
  have e : ∑ j in range (degree + 1),
      (if i < degree + 1 ∧ j < degree + 1 then ∑ k in range n, x k ^ (i + j) else 0) * c j =
      ∑ j in range (degree + 1), ∑ k in range n, x k ^ (i + j) * c j :=
    sum_congr rfl fun j hj => by rw [if_pos ⟨hi, mem_range.1 hj⟩, sum_mul]
  rw [e, sum_comm]
  refine sum_congr rfl fun k hk => ?_
  rw [hy k (mem_range.1 hk), sum_mul]
  exact sum_congr rfl fun j _ => by rw [pow_add]; ring

/-! ## The filtering loop of the exponential fit -/

theorem positiveIndices_succ (y : Nat → K) (m : Nat) :
    positiveIndices y (m + 1) =
      positiveIndices y m ++ (if y m > 0 then [m] else []) := by
  unfold positiveIndices
  rw [List.range_succ, List.filter_append]
  by_cases h : y m > 0 <;> simp [h]

theorem positiveIndices_length_le (y : Nat → K) (m : Nat) :
    (positiveIndices y m).length ≤ m := by
  unfold positiveIndices
  exact (List.length_filter_le _ _).trans (by rw [List.length_range])

/-- The state of the filtering loop after `m` passes. -/
theorem exponentialRegressionLoop_invariant (log : K → K) (x y : Nat → K) (m : Nat) :
    (exponentialRegressionLoop log x y m).valid_points = (positiveIndices y m).length ∧
    (∀ k, k < (positiveIndices y m).length →
      (exponentialRegressionLoop log x y m).x k = x ((positiveIndices y m).getD k 0) ∧
      (exponentialRegressionLoop log x y m).ln_y k =
        log (y ((positiveIndices y m).getD k 0))) ∧
    (∀ k, (positiveIndices y m).length ≤ k →
      (exponentialRegressionLoop log x y m).x k = x k) := by
  induction m with
  | zero =>
    refine ⟨rfl, fun k hk => ?_, fun k _ => rfl⟩
    simp [positiveIndices] at hk
  | succ m ih =>
    obtain ⟨hvp, hlow, hhigh⟩ := ih
    have hle := positiveIndices_length_le y m
    have hstep : exponentialRegressionLoop log x y (m + 1) =
        if y m > 0 then
          { x := setAt (exponentialRegressionLoop log x y m).x
              (exponentialRegressionLoop log x y m).valid_points
              ((exponentialRegressionLoop log x y m).x m)
            ln_y := setAt (exponentialRegressionLoop log x y m).ln_y
              (exponentialRegressionLoop log x y m).valid_points (log (y m))
            valid_points := (exponentialRegressionLoop log x y m).valid_points + 1 }
        else exponentialRegressionLoop log x y m := rfl
    rw [hstep, positiveIndices_succ]
    by_cases hy : y m > 0
    · simp only [if_pos hy, List.length_append, List.length_singleton]
      refine ⟨by rw [hvp], fun k hk => ?_, fun k hk => ?_⟩
      · simp only [setAt, hvp, hhigh m hle]
        by_cases hk' : k = (positiveIndices y m).length
        · subst hk'
          simp [List.getD_append_right]
        · have hlt : k < (positiveIndices y m).length := by omega
          rw [if_neg hk', if_neg hk', List.getD_append _ _ _ _ hlt]
          exact hlow k hlt
      · simp only [setAt, hvp]
        rw [if_neg (by omega)]
        exact hhigh k (by omega)
    · simp only [if_neg hy, List.append_nil]
      exact ⟨hvp, hlow, hhigh⟩

/-- The fit only reads the first `n` cells of its two arrays. -/
theorem linearRegression_congr (x x' y y' : Nat → K) (n : Nat)
    (hx : ∀ i, i < n → x i = x' i) (hy : ∀ i, i < n → y i = y' i) :
    linearRegression x y n = linearRegression x' y' n := by
  have hs : linearRegressionSums x y n = linearRegressionSums x' y' n := by
    rw [linearRegressionSums_eq, linearRegressionSums_eq]
    congr 1
    · exact sum_congr rfl fun i hi => hx i (mem_range.1 hi)
    · exact sum_congr rfl fun i hi => hy i (mem_range.1 hi)
    · exact sum_congr rfl fun i hi => by rw [hx i (mem_range.1 hi), hy i (mem_range.1 hi)]
    · exact sum_congr rfl fun i hi => by rw [hx i (mem_range.1 hi)]
  simp only [linearRegression, linearRegressionDenominator, hs]

theorem exponentialRegression_eq (log exp : K → K) (x y : Nat → K) (n : Nat) :
    (exponentialRegression log exp x y n).a =
      exp (linearRegression (fun k => x ((positiveIndices y n).getD k 0))
        (fun k => log (y ((positiveIndices y n).getD k 0))) (positiveIndices y n).length).1 ∧
    (exponentialRegression log exp x y n).b =
      (linearRegression (fun k => x ((positiveIndices y n).getD k 0))
        (fun k => log (y ((positiveIndices y n).getD k 0))) (positiveIndices y n).length).2 := by
  obtain ⟨hvp, hlow, _⟩ := exponentialRegressionLoop_invariant log x y n
  have e : linearRegression (exponentialRegressionLoop log x y n).x
      (exponentialRegressionLoop log x y n).ln_y
      (exponentialRegressionLoop log x y n).valid_points =
      linearRegression (fun k => x ((positiveIndices y n).getD k 0))
        (fun k => log (y ((positiveIndices y n).getD k 0))) (positiveIndices y n).length := by
    rw [hvp]
    exact linearRegression_congr _ _ _ _ _ (fun i hi => (hlow i hi).1) (fun i hi => (hlow i hi).2)
  simp only [exponentialRegression, e, and_self]

/-- On exactly linear data the fit gives back the line. -/
theorem linearRegression_exact (x : Nat → K) (n : Nat) (α β : K) (hn : (n : K) ≠ 0)
    (hD : linearRegressionDenominator x (fun i => α + β * x i) n ≠ 0) :
    linearRegression x (fun i => α + β * x i) n = (α, β) := by
  have hb := linearRegression_snd x (fun i => α + β * x i) n
  have ha := linearRegression_fst x (fun i => α + β * x i) n
  rw [linearRegressionDenominator_eq] at hD
  have e1 : ∑ i in range n, (α + β * x i) = n * α + β * ∑ i in range n, x i := by
    simp only [sum_add_distrib, sum_const, card_range, ← mul_sum, nsmul_eq_mul]
  have e2 : ∑ i in range n, x i * (α + β * x i) =
      α * ∑ i in range n, x i + β * ∑ i in range n, x i * x i := by
    simp only [mul_add, sum_add_distrib, mul_sum]
    congr 1
    · exact sum_congr rfl fun i _ => by ring
    · exact sum_congr rfl fun i _ => by ring
  rw [e1, e2] at hb
  have hb' : (linearRegression x (fun i => α + β * x i) n).2 = β := by
    rw [hb, div_eq_iff hD]; ring
  rw [e1, hb'] at ha
  have ha' : (linearRegression x (fun i => α + β * x i) n).1 = α := by
    rw [ha, div_eq_iff hn]; ring
  exact Prod.ext ha' hb'

theorem positiveIndices_of_pos (y : Nat → K) (n : Nat) (h : ∀ i, i < n → y i > 0) :
    positiveIndices y n = List.range n := by
  unfold positiveIndices
  rw [List.filter_eq_self]
  intro i hi
  simpa using h i (List.mem_range.1 hi)

theorem getD_range (n k : Nat) (hk : k < n) : (List.range n).getD k 0 = k := by
  rw [List.getD_eq_getElem _ _ (by rw [List.length_range]; exact hk), List.getElem_range]

/-- Data lying exactly on `a·e^(b·x)` with `a > 0` give back `(a, b)`. -/
theorem expFit_recovers_real (a b : ℝ) (ha : 0 < a) (x y : Nat → ℝ) (n : Nat)
    (hn : 2 ≤ n) (hx : ∃ i, i < n ∧ ∃ j, j < n ∧ x i ≠ x j)
    (hy : ∀ i, i < n → y i = a * Real.exp (b * x i)) :
    (exponentialRegression Real.log Real.exp x y n).a = a ∧
      (exponentialRegression Real.log Real.exp x y n).b = b := by
  have hpos : ∀ i, i < n → y i > 0 := fun i hi => by
    rw [hy i hi]; exact mul_pos ha (Real.exp_pos _)
  have hidx := positiveIndices_of_pos y n hpos
  have hfit : linearRegression (fun k => x ((positiveIndices y n).getD k 0))
      (fun k => Real.log (y ((positiveIndices y n).getD k 0))) (positiveIndices y n).length =
      (Real.log a, b) := by
    rw [hidx, List.length_range]
    rw [linearRegression_congr _ x _ (fun i => Real.log a + b * x i) n
      (fun i hi => by simp only [getD_range n i hi])
      (fun i hi => by
        simp only [getD_range n i hi]
        rw [hy i hi, Real.log_mul ha.ne' (Real.exp_pos _).ne', Real.log_exp])]
    refine linearRegression_exact x n _ _ (natCast_ne_zero_of_two_le n hn) ?_
    obtain ⟨i, hi, j, hj, hne⟩ := hx
    exact (denominator_pos x _ n ⟨i, hi, j, hj, hne⟩).ne'
  obtain ⟨h1, h2⟩ := exponentialRegression_eq Real.log Real.exp x y n
  rw [h1, h2, hfit]
  exact ⟨Real.exp_log ha, rfl⟩

theorem scenario_exact (i : Nat) (hi : i < 4) :
    (scenarioY : Nat → ℝ) i = 10 * Real.exp (Real.log 2 * scenarioX i) := by
  have h2 : Real.exp (Real.log 2) = 2 := Real.exp_log (by norm_num)
  have hpow : ∀ m : Nat, Real.exp (Real.log 2 * (m : ℝ)) = 2 ^ m := by
    intro m
    rw [mul_comm, Real.exp_nat_mul, h2]
  interval_cases i
  · simp [scenarioX, scenarioY]
  · have := hpow 1
    simp only [Nat.cast_one, mul_one] at this
    simp [scenarioX, scenarioY, this]; norm_num
  · have := hpow 2
    simp only [Nat.cast_ofNat] at this
    simp [scenarioX, scenarioY, this]; norm_num
  · have := hpow 3
    simp only [Nat.cast_ofNat] at this
    simp [scenarioX, scenarioY, this]; norm_num

theorem scenario_distinct : ∃ i, i < 4 ∧ ∃ j, j < 4 ∧ (scenarioX : Nat → ℝ) i ≠ scenarioX j :=
  ⟨0, by norm_num, 1, by norm_num, by simp [scenarioX]⟩

/-! ## Runs on the sample inputs -/

theorem sample_run (X : Nat → ℚ) :
    gaussJordan sampleA sampleB X 2 = some (setAt (setAt X 0 (-3)) 1 (7 / 2)) := by
  norm_num [gaussJordan, gaussJordanEliminationLoop, forLoop, gaussJordanStep_eq,
    gaussJordanMaxRow, forLoopFrom, gaussJordanInit_eq, swapRows, scaleRow, clearColumn,
    sampleA, sampleB, pivotTolerance, abs_lt]

theorem sampleDup_det : (toMatrix sampleDup 2).det = 0 := by
  simp [Matrix.det_fin_two, toMatrix, sampleDup]

theorem samplePoly_run (coef : Nat → ℚ) :
    polynomialRegression sampleX sampleY 3 coef 1 = some (setAt (setAt coef 0 1) 1 2) := by
  have hA : polynomialRegressionA sampleX 3 1 =
      fun r c => if r < 2 ∧ c < 2 then (if r + c = 0 then 3 else if r + c = 1 then 3 else 5)
        else 0 := by
    rw [polynomialRegressionA_eq]
    funext r c
    by_cases h : r < 2 ∧ c < 2
    · obtain ⟨h1, h2⟩ := h
      interval_cases r <;> interval_cases c <;> norm_num [sum_range_succ, sampleX]
    · simp [h]
  have hB : polynomialRegressionB sampleX sampleY 3 1 =
      fun r => if r < 2 then (if r = 0 then 9 else 13) else 0 := by
    rw [polynomialRegressionB_eq]
    funext r
    by_cases h : r < 2
    · interval_cases r <;> norm_num [sum_range_succ, sampleX, sampleY]
    · simp [h]
  unfold polynomialRegression
  rw [hA, hB]
  norm_num [gaussJordan, gaussJordanEliminationLoop, forLoop, gaussJordanStep_eq,
    gaussJordanMaxRow, forLoopFrom, gaussJordanInit_eq, swapRows, scaleRow, clearColumn,
    pivotTolerance, abs_lt]

theorem sampleY_exact :
    ∀ k, k < 3 → sampleY k = ∑ j in range (1 + 1), sampleC j * sampleX k ^ j := by
  intro k hk
  interval_cases k <;> norm_num [sum_range_succ, sampleX, sampleY, sampleC]

/-- With all `x` equal, the divisor of the fit that `exponentialRegression` delegates to
`linearRegression` is zero as well. -/
theorem exponentialRegression_denominator_zero (log : K → K) (x y : Nat → K) (n : Nat)
    (hdeg : ∀ i, i < n → ∀ j, j < n → x i = x j) :
    linearRegressionDenominator (exponentialRegressionLoop log x y n).x
      (exponentialRegressionLoop log x y n).ln_y
      (exponentialRegressionLoop log x y n).valid_points = 0 := by
  obtain ⟨hvp, hlow, _⟩ := exponentialRegressionLoop_invariant log x y n
  rw [denominator_eq_zero_iff, hvp]
  have hmem : ∀ k, k < (positiveIndices y n).length → (positiveIndices y n).getD k 0 < n := by
    intro k hk
    rw [List.getD_eq_getElem _ _ hk]
    have := List.getElem_mem hk
    unfold positiveIndices at this
    exact List.mem_range.1 (List.mem_filter.1 this).1
  intro i hi j hj
  rw [(hlow i hi).1, (hlow j hj).1]
  exact hdeg _ (hmem i hi) _ (hmem j hj)

/-! ## The claims -/

/-- C1. `gaussJordan` solves the system: whenever the call comes back (no pivot was found
below the tolerance), the vector `X'` it leaves in `X` satisfies `A·X' = B`, that is
`Σ_j A[i][j]·X'[j] = B[i]` for every row `i < n`. Stated for every `n`, so also for `n ≥ 1`. -/
theorem gaussJordan_solves (n : Nat) (A : Nat → Nat → K) (B X X' : Nat → K)
    (h : gaussJordan A B X n = some X') :
    ∀ i, i < n → ∑ j in range n, A i j * X' j = B i :=
  gaussJordan_sound A B X X' n h

/-- Witness of C1 on the system `[[1, 2], [3, 4]]·X = [4, 5]`, solved by `X = (-3, 7/2)`. -/
theorem gaussJordan_solves_witness :
    gaussJordan sampleA sampleB (fun _ => 0) 2 =
        some (setAt (setAt (fun _ => 0) 0 (-3)) 1 (7 / 2)) ∧
      ∀ i, i < 2 → ∑ j in range 2,
        sampleA i j * (setAt (setAt (fun _ => 0) 0 (-3)) 1 (7 / 2) : Nat → ℚ) j = sampleB i :=
  ⟨sample_run _, gaussJordan_solves 2 sampleA sampleB (fun _ => 0) _ (sample_run _)⟩

/-- C2. Singularity detection: when the `n×n` matrix held in `A` has determinant zero,
`gaussJordan` ends in the fatal "Matriks singular" branch (`none`) whatever `B` and `X` are,
so it never hands back a solution vector. -/
theorem gaussJordan_singular (n : Nat) (A : Nat → Nat → K) (B X : Nat → K)
    (hdet : (toMatrix A n).det = 0) : gaussJordan A B X n = none :=
  gaussJordan_eq_none A B X n (eliminationLoop_none_of_det A B n hdet)

/-- Witness of C2 on the matrix `[[1, 2], [1, 2]]` with a duplicated row. -/
theorem gaussJordan_singular_witness :
    (toMatrix sampleDup 2).det = 0 ∧ gaussJordan sampleDup sampleB (fun _ => 0) 2 = none :=
  ⟨sampleDup_det, gaussJordan_singular 2 sampleDup sampleB (fun _ => 0) sampleDup_det⟩

/-- C3. `linearRegression` returns the least-squares line: for `n ≥ 2` samples with two
distinct `x` values, the pair `(a, b)` it returns is given by the closed-form normal
equations and its sum of squared residuals is at most that of every other pair `(a', b')`. -/
theorem linearRegression_least_squares (x y : Nat → K) (n : Nat) (hn : 2 ≤ n)
    (hx : ∃ i < n, ∃ j < n, x i ≠ x j) (a' b' : K) :
    (linearRegression x y n).2 =
        ((n : K) * (∑ i in range n, x i * y i) - (∑ i in range n, x i) * (∑ i in range n, y i)) /
          ((n : K) * (∑ i in range n, x i * x i) -
            (∑ i in range n, x i) * (∑ i in range n, x i)) ∧
      (linearRegression x y n).1 =
        ((∑ i in range n, y i) - (linearRegression x y n).2 * (∑ i in range n, x i)) / (n : K) ∧
      lineResidual x y n (linearRegression x y n).1 (linearRegression x y n).2 ≤
        lineResidual x y n a' b' :=
  ⟨linearRegression_snd x y n, linearRegression_fst x y n,
    (linearRegression_min_aux x y n hn hx).2.2 a' b'⟩

/-- Witness of C3 on the samples `(0,1), (1,3), (2,5)` against the line `0 + 0·x`. -/
theorem linearRegression_least_squares_witness :
    2 ≤ 3 ∧ (∃ i < 3, ∃ j < 3, sampleX i ≠ sampleX j) ∧
      lineResidual sampleX sampleY 3 (linearRegression sampleX sampleY 3).1
        (linearRegression sampleX sampleY 3).2 ≤ lineResidual sampleX sampleY 3 0 0 :=
  ⟨by decide, ⟨0, by decide, 1, by decide, by simp [sampleX]⟩,
    (linearRegression_least_squares sampleX sampleY 3 (by decide)
      ⟨0, by decide, 1, by decide, by simp [sampleX]⟩ 0 0).2.2⟩

/-- C4. `polynomialRegression` returns a least-squares polynomial: whenever the call comes
back with `coef'`, the sum of squared residuals of `coef'[0..degree]` is at most that of
every other coefficient vector `c`. -/
theorem polynomialRegression_least_squares (x y : Nat → K) (n : Nat) (coef coef' : Nat → K)
    (degree : Nat) (h : polynomialRegression x y n coef degree = some coef') (c : Nat → K) :
    polyResidual x y n coef' degree ≤ polyResidual x y n c degree :=
  polynomialRegression_min x y n coef coef' degree h c

/-- Witness of C4: the degree-1 fit of `(0,1), (1,3), (2,5)` against the zero polynomial. -/
theorem polynomialRegression_least_squares_witness :
    polynomialRegression sampleX sampleY 3 (fun _ => 0) 1 =
        some (setAt (setAt (fun _ => 0) 0 1) 1 2) ∧
      polyResidual sampleX sampleY 3 (setAt (setAt (fun _ => 0) 0 1) 1 2) 1 ≤
        polyResidual sampleX sampleY 3 (fun _ => 0) 1 :=
  ⟨samplePoly_run _,
    polynomialRegression_least_squares sampleX sampleY 3 (fun _ => 0) _ 1 (samplePoly_run _)
      (fun _ => 0)⟩

/-- C5. `exponentialRegression` log-linearises correctly: the returned `(a, b)` is
`(exp ln_a, b)` where `(ln_a, b)` is `linearRegression` run on exactly the pairs
`(x_i, log y_i)` of the indices with `y_i > 0`, in their original order; and the in-place
compaction is safe: in pass `i` the write index `valid_points` is at most `i` and the cell
`x[i]` read still holds the caller's value. -/
theorem exponentialRegression_loglinear (log exp : K → K) (x y : Nat → K) (n : Nat) :
    (exponentialRegression log exp x y n).a =
        exp (linearRegression (fun k => x ((positiveIndices y n).getD k 0))
          (fun k => log (y ((positiveIndices y n).getD k 0))) (positiveIndices y n).length).1 ∧
      (exponentialRegression log exp x y n).b =
        (linearRegression (fun k => x ((positiveIndices y n).getD k 0))
          (fun k => log (y ((positiveIndices y n).getD k 0))) (positiveIndices y n).length).2 ∧
      (∀ i, (exponentialRegressionLoop log x y i).valid_points ≤ i ∧
        (exponentialRegressionLoop log x y i).x i = x i) ∧
      ∀ i, i ∈ positiveIndices y n ↔ i < n ∧ y i > 0 := by
  refine ⟨(exponentialRegression_eq log exp x y n).1, (exponentialRegression_eq log exp x y n).2,
    fun i => ?_, fun i => ?_⟩
  · obtain ⟨hvp, _, hhigh⟩ := exponentialRegressionLoop_invariant log x y i
    have hle := positiveIndices_length_le y i
    exact ⟨by rw [hvp]; exact hle, hhigh i hle⟩
  · simp [positiveIndices]

/-- C6. Exactness of `exponentialRegression` on exact exponential data, over the reals:
samples `y_i = a·e^(b·x_i)` with `a > 0`, `n ≥ 2` and two distinct `x` give back exactly
`(a, b)`; for the scenario `{(0,10),(1,20),(2,40),(3,80)}` the result is `a = 10`,
`b = ln 2`, within `1e-3` of `0.6931`, and the prediction of `main` for `x = 4`
(year 2004, base year 2000) is `160`. -/
theorem exponentialRegression_exact :
    (∀ (a b : ℝ) (x y : Nat → ℝ) (n : Nat), 0 < a → 2 ≤ n →
      (∃ i, i < n ∧ ∃ j, j < n ∧ x i ≠ x j) →
      (∀ i, i < n → y i = a * Real.exp (b * x i)) →
      (exponentialRegression Real.log Real.exp x y n).a = a ∧
        (exponentialRegression Real.log Real.exp x y n).b = b) ∧
    (exponentialRegression Real.log Real.exp scenarioX scenarioY 4).a = 10 ∧
    (exponentialRegression Real.log Real.exp scenarioX scenarioY 4).b = Real.log 2 ∧
    |(exponentialRegression Real.log Real.exp scenarioX scenarioY 4).b - 0.6931| < 1 / 1000 ∧
    predictExponential Real.exp (exponentialRegression Real.log Real.exp scenarioX scenarioY 4).a
      (exponentialRegression Real.log Real.exp scenarioX scenarioY 4).b 2004 2000 = 160 := by
  have hs := expFit_recovers_real 10 (Real.log 2) (by norm_num) scenarioX scenarioY 4
    (by norm_num) scenario_distinct scenario_exact
  refine ⟨fun a b x y n ha hn hx hy => expFit_recovers_real a b ha x y n hn hx hy,
    hs.1, hs.2, ?_, ?_⟩
  · rw [hs.2, abs_lt]
    have h1 := Real.log_two_gt_d9
    have h2 := Real.log_two_lt_d9
    constructor <;> norm_num at h1 h2 ⊢ <;> linarith
  · rw [hs.1, hs.2]
    unfold predictExponential
    have h2 : Real.exp (Real.log 2) = 2 := Real.exp_log (by norm_num)
    have : Real.exp (Real.log 2 * (((2004 - 2000 : Int)) : ℝ)) = 2 ^ 4 := by
      have := Real.exp_nat_mul (Real.log 2) 4
      rw [h2] at this
      rw [← this]
      congr 1
      push_cast
      ring
    simp only [this]
    norm_num

/-- Witness of C6: the general statement applied to the scenario samples. -/
theorem exponentialRegression_exact_witness :
    (exponentialRegression Real.log Real.exp scenarioX scenarioY 4).a = 10 ∧
      (exponentialRegression Real.log Real.exp scenarioX scenarioY 4).b = Real.log 2 :=
  exponentialRegression_exact.1 10 (Real.log 2) scenarioX scenarioY 4 (by norm_num)
    (by norm_num) scenario_distinct scenario_exact

/-- C7. Exactness of `polynomialRegression` on exact polynomial data: when
`y_k = Σ_j c_j·x_k^j` for every sample and the call comes back with `coef'`, then
`coef'[j] = c[j]` for every `j ≤ degree`. -/
theorem polynomialRegression_exact (x y : Nat → K) (n : Nat) (coef coef' : Nat → K)
    (degree : Nat) (c : Nat → K)
    (hy : ∀ k, k < n → y k = ∑ j in range (degree + 1), c j * x k ^ j)
    (h : polynomialRegression x y n coef degree = some coef') :
    ∀ j, j < degree + 1 → coef' j = c j :=
  polyFit_recovers x y n coef coef' degree c hy h

/-- Witness of C7: the samples `(0,1), (1,3), (2,5)` of the line `1 + 2x`, degree 1. -/
theorem polynomialRegression_exact_witness :
    (∀ k, k < 3 → sampleY k = ∑ j in range (1 + 1), sampleC j * sampleX k ^ j) ∧
      polynomialRegression sampleX sampleY 3 (fun _ => 0) 1 =
        some (setAt (setAt (fun _ => 0) 0 1) 1 2) ∧
      ∀ j, j < 1 + 1 → (setAt (setAt (fun _ => 0) 0 1) 1 2 : Nat → ℚ) j = sampleC j :=
  ⟨sampleY_exact, samplePoly_run _,
    polynomialRegression_exact sampleX sampleY 3 (fun _ => 0) _ 1 sampleC sampleY_exact
      (samplePoly_run _)⟩

/-- C8. Clamping law of the polynomial prediction path: the stored percentage is
`min(100, max(0, raw))`, hence in `[0, 100]`; the stored population is `max(0, raw)`, hence
`≥ 0`; `raw` is `evaluatePolynomial` at the normalised year, and a raw value already in range
is stored unchanged. -/
theorem prediction_clamped (coef_internet coef_population : Nat → K)
    (degree_internet degree_population : Nat) (year base_year : Int) :
    predictedPercentage coef_internet degree_internet year base_year =
        min 100 (max 0
          (evaluatePolynomial (((year - base_year : Int)) : K) coef_internet degree_internet)) ∧
      0 ≤ predictedPercentage coef_internet degree_internet year base_year ∧
      predictedPercentage coef_internet degree_internet year base_year ≤ 100 ∧
      predictedPopulation coef_population degree_population year base_year =
        max 0
          (evaluatePolynomial (((year - base_year : Int)) : K) coef_population
            degree_population) ∧
      0 ≤ predictedPopulation coef_population degree_population year base_year ∧
      (0 ≤ evaluatePolynomial (((year - base_year : Int)) : K) coef_internet degree_internet →
        evaluatePolynomial (((year - base_year : Int)) : K) coef_internet degree_internet ≤ 100 →
        predictedPercentage coef_internet degree_internet year base_year =
          evaluatePolynomial (((year - base_year : Int)) : K) coef_internet degree_internet) ∧
      (0 ≤ evaluatePolynomial (((year - base_year : Int)) : K) coef_population
          degree_population →
        predictedPopulation coef_population degree_population year base_year =
          evaluatePolynomial (((year - base_year : Int)) : K) coef_population
            degree_population) := by
  unfold predictedPercentage predictedPopulation
  simp only
  generalize evaluatePolynomial (((year - base_year : Int)) : K) coef_internet degree_internet = p
  generalize evaluatePolynomial (((year - base_year : Int)) : K) coef_population
    degree_population = q
  have h100 : (0 : K) < 100 := by norm_num
  refine ⟨?_, ?_, ?_, ?_, ?_, ?_, ?_⟩
  · by_cases h1 : p < 0
    · have : max 0 p = 0 := max_eq_left h1.le
      rw [if_pos h1, if_neg (by linarith), this, min_eq_right h100.le]
    · have : max 0 p = p := max_eq_right (not_lt.1 h1)
      rw [if_neg h1, this]
      by_cases h2 : p > 100
      · rw [if_pos h2, min_eq_left h2.le]
      · rw [if_neg h2, min_eq_right (not_lt.1 h2)]
  · by_cases h1 : p < 0
    · rw [if_pos h1, if_neg (by linarith)]
    · rw [if_neg h1]
      by_cases h2 : p > 100
      · rw [if_pos h2]; exact h100.le
      · rw [if_neg h2]; exact not_lt.1 h1
  · by_cases h1 : p < 0
    · rw [if_pos h1, if_neg (by linarith)]; exact h100.le
    · rw [if_neg h1]
      by_cases h2 : p > 100
      · rw [if_pos h2]
      · rw [if_neg h2]; exact not_lt.1 h2
  · by_cases h1 : q < 0
    · rw [if_pos h1, max_eq_left h1.le]
    · rw [if_neg h1, max_eq_right (not_lt.1 h1)]
  · by_cases h1 : q < 0
    · rw [if_pos h1]
    · rw [if_neg h1]; exact not_lt.1 h1
  · intro h0 h1
    rw [if_neg (not_lt.2 h0), if_neg (not_lt.2 h1)]
  · intro h0
    rw [if_neg (not_lt.2 h0)]

/-- C9, refuted as stated: on the degenerate sample set `x = (1, 1)`, `y = (1, 3)` the
divisor of the slope is zero, yet neither `linearRegression` nor `exponentialRegression`
rejects the input: both calls come back. -/
theorem degenerate_input_not_rejected :
    (∀ i, i < 2 → ∀ j, j < 2 → sampleFlat i = sampleFlat j) ∧
      linearRegressionDenominator sampleFlat sampleY 2 = 0 ∧
      linearRegressionCall sampleFlat sampleY 2 ≠ none ∧
      exponentialRegressionCall (fun t => t) (fun t => t) sampleFlat sampleY 2 ≠ none := by
  refine ⟨fun _ _ _ _ => rfl, ?_, ?_, ?_⟩
  · rw [denominator_eq_zero_iff]
    exact fun _ _ _ _ => rfl
  · simp [linearRegressionCall]
  · simp [exponentialRegressionCall, linearRegressionCall]

/-- C9, amended: `linearRegression` and `exponentialRegression` do not validate their
input. Every call comes back with the values of the closed-form formulas, and when all
`x_i` are equal (so also for `n = 0` and `n = 1`) the divisor `n·Σx² − (Σx)²` of the slope is
zero, in `linearRegression` and in the fit `exponentialRegression` delegates to it. -/
theorem regression_input_unvalidated (log exp : K → K) (x y : Nat → K) (n : Nat)
    (hdeg : ∀ i, i < n → ∀ j, j < n → x i = x j) :
    linearRegressionCall x y n = some (linearRegression x y n) ∧
      exponentialRegressionCall log exp x y n = some (exponentialRegression log exp x y n) ∧
      linearRegressionDenominator x y n = 0 ∧
      linearRegressionDenominator (exponentialRegressionLoop log x y n).x
        (exponentialRegressionLoop log x y n).ln_y
        (exponentialRegressionLoop log x y n).valid_points = 0 :=
  ⟨rfl, rfl, (denominator_eq_zero_iff x y n).2 hdeg,
    exponentialRegression_denominator_zero log x y n hdeg⟩

/-- Witness of the amended C9 on `x = (1, 1)`, `y = (1, 3)`. -/
theorem regression_input_unvalidated_witness :
    (∀ i, i < 2 → ∀ j, j < 2 → sampleFlat i = sampleFlat j) ∧
      linearRegressionCall sampleFlat sampleY 2 = some (linearRegression sampleFlat sampleY 2) ∧
      linearRegressionDenominator sampleFlat sampleY 2 = 0 :=
  ⟨fun _ _ _ _ => rfl,
    (regression_input_unvalidated (fun t => t) (fun t => t) sampleFlat sampleY 2
      fun _ _ _ _ => rfl).1,
    (regression_input_unvalidated (fun t => t) (fun t => t) sampleFlat sampleY 2
      fun _ _ _ _ => rfl).2.2.1⟩

/-- C10. The division in `linearRegression` is guarded exactly by distinctness of `x`: the
divisor `n·Σx² − (Σx)²` is zero if and only if all `x_i` are equal (always so for `n ≤ 1`),
and as soon as two `x_i` differ it is strictly positive and the other divisor `n` is
non-zero, so no division by zero is reached under the caller's precondition. -/
theorem linearRegression_denominator_guard (x y : Nat → K) (n : Nat) :
    (linearRegressionDenominator x y n = 0 ↔ ∀ i < n, ∀ j < n, x i = x j) ∧
      (n ≤ 1 → linearRegressionDenominator x y n = 0) ∧
      ((∃ i < n, ∃ j < n, x i ≠ x j) →
        0 < linearRegressionDenominator x y n ∧ (n : K) ≠ 0) := by
  refine ⟨denominator_eq_zero_iff x y n, fun hn => ?_, fun hx => ⟨denominator_pos x y n hx, ?_⟩⟩
  · rw [denominator_eq_zero_iff]
    intro i hi j hj
    have hij : i = j := by omega
    rw [hij]
  · obtain ⟨i, hi, _⟩ := hx
    exact Nat.cast_ne_zero.2 (by omega)

/-- Witness of C10 on the abscissas `0, 1, 2`. -/
theorem linearRegression_denominator_guard_witness :
    0 < linearRegressionDenominator sampleX sampleY 3 ∧ ((3 : Nat) : ℚ) ≠ 0 :=
  (linearRegression_denominator_guard sampleX sampleY 3).2.2
    ⟨0, by decide, 1, by decide, by simp [sampleX]⟩

/-! ## The caller's arrays after the calls -/

/-- The array `x` as `exponentialRegression` leaves it: the kept values in front, the rest
as it was. -/
theorem exponentialRegression_x (log exp : K → K) (x y : Nat → K) (n : Nat) :
    (∀ k, k < (positiveIndices y n).length →
      (exponentialRegression log exp x y n).x k = x ((positiveIndices y n).getD k 0)) ∧
    (∀ k, (positiveIndices y n).length ≤ k →
      (exponentialRegression log exp x y n).x k = x k) := by
  obtain ⟨_, hlow, hhigh⟩ := exponentialRegressionLoop_invariant log x y n
  exact ⟨fun k hk => (hlow k hk).1, hhigh⟩

theorem exponentialRegression_x_of_pos (log exp : K → K) (x y : Nat → K) (n : Nat)
    (hpos : ∀ i, i < n → y i > 0) : (exponentialRegression log exp x y n).x = x := by
  obtain ⟨hlow, hhigh⟩ := exponentialRegression_x log exp x y n
  have hidx := positiveIndices_of_pos y n hpos
  funext k
  by_cases hk : k < n
  · have := hlow k (by rw [hidx, List.length_range]; exact hk)
    rw [this, hidx, getD_range n k hk]
  · exact hhigh k (by rw [hidx, List.length_range]; omega)

theorem sampleSkip_x :
    (exponentialRegression (fun t => t) (fun t => t) sampleSkipX sampleSkipY 2).x 0 = 1 := by
  norm_num [exponentialRegression, exponentialRegressionLoop, forLoop, setAt, sampleSkipX,
    sampleSkipY]

/-! ## Horner's scheme and the power sum -/

theorem evaluatePolynomial_eq_sum (x : K) (coef : Nat → K) (degree : Nat) :
    evaluatePolynomial x coef degree = ∑ i in range (degree + 1), coef i * x ^ i := by
  unfold evaluatePolynomial
  generalize degree + 1 = m
  induction m with
  | zero => rfl
  | succ m ih => rw [forLoop_succ, ih, sum_range_succ]

theorem horner_eq_sum (x : K) (coef : Nat → K) (i k : Nat) :
    horner x coef i k = ∑ j in range (k + 1), coef (i + j) * x ^ j := by
  induction k generalizing i with
  | zero => simp [horner]
  | succ k ih =>
    rw [horner, ih, sum_range_succ' _ (k + 1), mul_sum]
    simp only [pow_zero, mul_one, Nat.add_zero]
    rw [add_comm]
    congr 1
    exact sum_congr rfl fun j _ => by rw [pow_succ, Nat.add_assoc, Nat.add_comm 1 j]; ring

/-! ## Systems with one unknown -/

theorem eliminationLoop_one (M : Nat → Nat → K) :
    gaussJordanEliminationLoop 1 M =
      if |M 0 0| < pivotTolerance then none
      else some (clearColumn (scaleRow (swapRows M 1 0 0) 1 0 (M 0 0)) 1 0) := by
  simp [gaussJordanEliminationLoop, forLoop, gaussJordanStep_eq, gaussJordanMaxRow, forLoopFrom,
    swapRows]

theorem gaussJordan_one_some (A : Nat → Nat → K) (B X : Nat → K)
    (h : ¬ |A 0 0| < pivotTolerance) :
    gaussJordan A B X 1 = some (setAt X 0 (B 0 / A 0 0)) := by
  unfold gaussJordan
  simp only [eliminationLoop_one]
  have h0 : gaussJordanInit A B 1 0 0 = A 0 0 := by simp [gaussJordanInit_eq]
  rw [h0, if_neg h]
  simp [forLoop, clearColumn, scaleRow, swapRows, gaussJordanInit_eq]

theorem gaussJordan_one_none (A : Nat → Nat → K) (B X : Nat → K)
    (h : |A 0 0| < pivotTolerance) : gaussJordan A B X 1 = none := by
  unfold gaussJordan
  simp only [eliminationLoop_one]
  have h0 : gaussJordanInit A B 1 0 0 = A 0 0 := by simp [gaussJordanInit_eq]
  rw [h0, if_pos h]

theorem pivotTolerance_lt_one : (pivotTolerance : K) < 1 := by
  unfold pivotTolerance
  rw [div_lt_one (by positivity)]
  norm_num

/-! ## Year normalisation -/

theorem wrapInt32_of_fits (z : Int) (h1 : -2147483648 ≤ z) (h2 : z < 2147483648) :
    wrapInt32 z = z := by
  unfold wrapInt32
  rw [Int.emod_eq_of_lt (by omega) (by omega)]
  omega

theorem normalizeYears_eq (original_years : Nat → Int) (normalized_years : Nat → K) (n : Nat)
    (base_year : Int) :
    (normalizeYears original_years normalized_years n base_year).original_years =
        original_years ∧
      (normalizeYears original_years normalized_years n base_year).normalized_years =
        fun i => if i < n then ((wrapInt32 (original_years i - base_year) : Int) : K)
          else normalized_years i := by
  unfold normalizeYears
  induction n with
  | zero => exact ⟨rfl, by funext i; simp [forLoop]⟩
  | succ n ih =>
    rw [forLoop_succ]
    obtain ⟨h1, h2⟩ := ih
    refine ⟨h1, ?_⟩
    simp only [h1, h2]
    funext i
    by_cases hi : i = n
    · simp [setAt, hi]
    · have : i < n + 1 ↔ i < n := by omega
      simp [setAt, hi, this]

theorem sampleYearsMin_normalized :
    (normalizeYears sampleYearsMin (fun _ => (0 : ℚ)) 1 1).normalized_years 0 = 2147483647 := by
  rw [(normalizeYears_eq sampleYearsMin (fun _ => (0 : ℚ)) 1 1).2]
  simp [sampleYearsMin, wrapInt32]

/-! ## Sums over permuted indices -/

theorem image_of_permutesBelow (σ : Nat → Nat) (n : Nat) (h : PermutesBelow σ n) :
    (range n).image σ = range n := by
  apply eq_of_subset_of_card_le
  · intro j hj
    obtain ⟨i, hi, rfl⟩ := mem_image.1 hj
    exact mem_range.2 (h.1 i (mem_range.1 hi))
  · rw [card_image_of_injOn]
    intro i hi j hj hij
    exact h.2 i (mem_range.1 hi) j (mem_range.1 hj) hij

theorem sum_permutesBelow {M : Type} [AddCommMonoid M] (σ : Nat → Nat) (n : Nat)
    (h : PermutesBelow σ n) (f : Nat → M) :
    ∑ i in range n, f (σ i) = ∑ i in range n, f i := by
  have hinj : Set.InjOn σ (range n : Finset Nat) := by
    intro i hi j hj hij
    exact h.2 i (mem_range.1 (mem_coe.1 hi)) j (mem_range.1 (mem_coe.1 hj)) hij
  rw [← sum_image hinj, image_of_permutesBelow σ n h]

theorem linearRegression_perm (σ : Nat → Nat) (n : Nat) (h : PermutesBelow σ n)
    (x y : Nat → K) :
    linearRegression (fun i => x (σ i)) (fun i => y (σ i)) n = linearRegression x y n := by
  have hs : linearRegressionSums (fun i => x (σ i)) (fun i => y (σ i)) n =
      linearRegressionSums x y n := by
    rw [linearRegressionSums_eq, linearRegressionSums_eq]
    congr 1
    · exact sum_permutesBelow σ n h x
    · exact sum_permutesBelow σ n h y
    · exact sum_permutesBelow σ n h fun i => x i * y i
    · exact sum_permutesBelow σ n h fun i => x i * x i
  simp only [linearRegression, linearRegressionDenominator, hs]

theorem polynomialRegression_perm (σ : Nat → Nat) (n : Nat) (h : PermutesBelow σ n)
    (x y coef : Nat → K) (degree : Nat) :
    polynomialRegression (fun i => x (σ i)) (fun i => y (σ i)) n coef degree =
      polynomialRegression x y n coef degree := by
  unfold polynomialRegression
  have hA : polynomialRegressionA (fun i => x (σ i)) n degree = polynomialRegressionA x n degree := by
    rw [polynomialRegressionA_eq, polynomialRegressionA_eq]
    funext r c
    rw [sum_permutesBelow σ n h fun k => x k ^ (r + c)]
  have hB : polynomialRegressionB (fun i => x (σ i)) (fun i => y (σ i)) n degree =
      polynomialRegressionB x y n degree := by
    rw [polynomialRegressionB_eq, polynomialRegressionB_eq]
    funext r
    rw [sum_permutesBelow σ n h fun k => y k * x k ^ r]
  rw [hA, hB]

/-- A sum over the kept samples, written over all samples. -/
theorem sum_positiveIndices {M : Type} [AddCommMonoid M] (y : Nat → K) (n : Nat) (g : Nat → M) :
    ∑ k in range (positiveIndices y n).length, g ((positiveIndices y n).getD k 0) =
      ∑ i in range n, if y i > 0 then g i else 0 := by
  induction n with
  | zero => simp [positiveIndices]
  | succ n ih =>
    rw [positiveIndices_succ, sum_range_succ, ← ih]
    by_cases hy : y n > 0
    · simp only [if_pos hy, List.length_append, List.length_singleton]
      rw [sum_range_succ]
      congr 1
      · exact sum_congr rfl fun k hk => by
          rw [List.getD_append _ _ _ _ (mem_range.1 hk)]
      · simp [List.getD_append_right]
    · simp only [if_neg hy, List.append_nil, add_zero]

theorem length_positiveIndices (y : Nat → K) (n : Nat) :
    (positiveIndices y n).length = ∑ i in range n, if y i > 0 then 1 else 0 := by
  rw [← sum_positiveIndices y n fun _ => 1]
  simp

theorem positiveIndices_length_perm (σ : Nat → Nat) (n : Nat) (h : PermutesBelow σ n)
    (y : Nat → K) :
    (positiveIndices (fun i => y (σ i)) n).length = (positiveIndices y n).length := by
  rw [length_positiveIndices, length_positiveIndices]
  exact sum_permutesBelow σ n h fun i => if y i > 0 then 1 else 0

/-- The four sums of the fit that `exponentialRegression` delegates, over all samples. -/
theorem expFit_sums (log : K → K) (x y : Nat → K) (n : Nat) :
    linearRegressionSums (fun k => x ((positiveIndices y n).getD k 0))
        (fun k => log (y ((positiveIndices y n).getD k 0))) (positiveIndices y n).length =
      { sum_x := ∑ i in range n, if y i > 0 then x i else 0
        sum_y := ∑ i in range n, if y i > 0 then log (y i) else 0
        sum_xy := ∑ i in range n, if y i > 0 then x i * log (y i) else 0
        sum_x2 := ∑ i in range n, if y i > 0 then x i * x i else 0 } := by
  rw [linearRegressionSums_eq]
  congr 1
  · exact sum_positiveIndices y n x
  · exact sum_positiveIndices y n fun i => log (y i)
  · exact sum_positiveIndices y n fun i => x i * log (y i)
  · exact sum_positiveIndices y n fun i => x i * x i

/-- The fit is a function of the sample count and the four sums. -/
theorem linearRegression_of_sums (x y x' y' : Nat → K) (n n' : Nat) (hn : n = n')
    (hs : linearRegressionSums x y n = linearRegressionSums x' y' n') :
    linearRegression x y n = linearRegression x' y' n' := by
  subst hn
  simp only [linearRegression, linearRegressionDenominator, hs]

theorem expFit_perm (log : K → K) (σ : Nat → Nat) (n : Nat) (h : PermutesBelow σ n)
    (x y : Nat → K) :
    linearRegression (fun k => x (σ ((positiveIndices (fun i => y (σ i)) n).getD k 0)))
        (fun k => log (y (σ ((positiveIndices (fun i => y (σ i)) n).getD k 0))))
        (positiveIndices (fun i => y (σ i)) n).length =
      linearRegression (fun k => x ((positiveIndices y n).getD k 0))
        (fun k => log (y ((positiveIndices y n).getD k 0))) (positiveIndices y n).length := by
  have hs := expFit_sums log (fun i => x (σ i)) (fun i => y (σ i)) n
  have ht := expFit_sums log x y n
  have hlen := positiveIndices_length_perm σ n h y
  have e : linearRegressionSums
      (fun k => x (σ ((positiveIndices (fun i => y (σ i)) n).getD k 0)))
      (fun k => log (y (σ ((positiveIndices (fun i => y (σ i)) n).getD k 0))))
      (positiveIndices (fun i => y (σ i)) n).length =
      linearRegressionSums (fun k => x ((positiveIndices y n).getD k 0))
        (fun k => log (y ((positiveIndices y n).getD k 0))) (positiveIndices y n).length := by
    rw [ht]
    refine hs.trans ?_
    congr 1
    · exact sum_permutesBelow σ n h fun i => if y i > 0 then x i else 0
    · exact sum_permutesBelow σ n h fun i => if y i > 0 then log (y i) else 0
    · exact sum_permutesBelow σ n h fun i => if y i > 0 then x i * log (y i) else 0
    · exact sum_permutesBelow σ n h fun i => if y i > 0 then x i * x i else 0
  exact linearRegression_of_sums _ _ _ _ _ _ hlen e

theorem exponentialRegression_perm (log exp : K → K) (σ : Nat → Nat) (n : Nat)
    (h : PermutesBelow σ n) (x y : Nat → K) :
    (exponentialRegression log exp (fun i => x (σ i)) (fun i => y (σ i)) n).a =
        (exponentialRegression log exp x y n).a ∧
      (exponentialRegression log exp (fun i => x (σ i)) (fun i => y (σ i)) n).b =
        (exponentialRegression log exp x y n).b := by
  obtain ⟨h1, h2⟩ := exponentialRegression_eq log exp (fun i => x (σ i)) (fun i => y (σ i)) n
  obtain ⟨h3, h4⟩ := exponentialRegression_eq log exp x y n
  rw [h1, h2, h3, h4, expFit_perm log σ n h x y]
  exact ⟨rfl, rfl⟩

/-! ## The normal-equation matrix -/

theorem normalMatrix_quadratic (x : Nat → K) (n degree : Nat) (v : Nat → K) :
    ∑ i in range (degree + 1), ∑ j in range (degree + 1),
        v i * polynomialRegressionA x n degree i j * v j =
      ∑ k in range n, (∑ i in range (degree + 1), v i * x k ^ i) ^ 2 := by
  rw [polynomialRegressionA_eq]
  have e : ∀ k, (∑ i in range (degree + 1), v i * x k ^ i) ^ 2 =
      ∑ i in range (degree + 1), ∑ j in range (degree + 1),
        v i * x k ^ (i + j) * v j := by
    intro k
    rw [sq, sum_mul_sum]
    exact sum_congr rfl fun i _ => sum_congr rfl fun j _ => by rw [pow_add]; ring
  have hL : ∑ i in range (degree + 1), ∑ j in range (degree + 1),
      v i * (fun r c => if r < degree + 1 ∧ c < degree + 1 then ∑ k in range n, x k ^ (r + c)
        else 0) i j * v j =
      ∑ i in range (degree + 1), ∑ j in range (degree + 1), ∑ k in range n,
        v i * x k ^ (i + j) * v j :=
    sum_congr rfl fun i hi => sum_congr rfl fun j hj => by
      simp only [if_pos (And.intro (mem_range.1 hi) (mem_range.1 hj))]
      rw [mul_sum, sum_mul]
  rw [hL]
  simp only [e]
  symm
  rw [sum_comm]
  refine sum_congr rfl fun i _ => ?_
  rw [sum_comm]

/-! ## The pivot search -/

theorem maxRow_loop (M : Nat → Nat → K) (i m : Nat) :
    i ≤ forLoop m (fun t max_row =>
        if |M (i + 1 + t) i| > |M max_row i| then i + 1 + t else max_row) i ∧
      forLoop m (fun t max_row =>
        if |M (i + 1 + t) i| > |M max_row i| then i + 1 + t else max_row) i ≤ i + m ∧
      (∀ r, i ≤ r → r ≤ i + m → |M r i| ≤ |M (forLoop m (fun t max_row =>
        if |M (i + 1 + t) i| > |M max_row i| then i + 1 + t else max_row) i) i|) ∧
      (∀ r, i ≤ r → r < forLoop m (fun t max_row =>
        if |M (i + 1 + t) i| > |M max_row i| then i + 1 + t else max_row) i →
        |M r i| < |M (forLoop m (fun t max_row =>
        if |M (i + 1 + t) i| > |M max_row i| then i + 1 + t else max_row) i) i|) := by
  induction m with
  | zero =>
    refine ⟨le_rfl, le_rfl, fun r h1 h2 => ?_, fun r h1 h2 => ?_⟩
    · have : r = i := by omega
      rw [this]; exact le_rfl
    · exact absurd h2 (by simp only [forLoop]; omega)
  | succ m ih =>
    rw [forLoop_succ]
    obtain ⟨h1, h2, h3, h4⟩ := ih
    generalize forLoop m (fun t max_row =>
        if |M (i + 1 + t) i| > |M max_row i| then i + 1 + t else max_row) i = p at h1 h2 h3 h4 ⊢
    by_cases hgt : |M (i + 1 + m) i| > |M p i|
    · simp only [if_pos hgt]
      refine ⟨by omega, by omega, fun r hr1 hr2 => ?_, fun r hr1 hr2 => ?_⟩
      · by_cases hr : r = i + 1 + m
        · rw [hr]
        · exact (lt_of_le_of_lt (h3 r hr1 (by omega)) hgt).le
      · exact lt_of_le_of_lt (h3 r hr1 (by omega)) hgt
    · simp only [if_neg hgt]
      refine ⟨h1, by omega, fun r hr1 hr2 => ?_, h4⟩
      by_cases hr : r = i + 1 + m
      · rw [hr]; exact not_lt.1 hgt
      · exact h3 r hr1 (by omega)

/-- The row chosen in column `i` is the first one of largest magnitude among `i..n-1`. -/
theorem gaussJordanMaxRow_spec (M : Nat → Nat → K) (i n : Nat) (hi : i < n) :
    i ≤ gaussJordanMaxRow M i n ∧ gaussJordanMaxRow M i n < n ∧
      (∀ r, i ≤ r → r < n → |M r i| ≤ |M (gaussJordanMaxRow M i n) i|) ∧
      (∀ r, i ≤ r → r < gaussJordanMaxRow M i n →
        |M r i| < |M (gaussJordanMaxRow M i n) i|) := by
  obtain ⟨h1, h2, h3, h4⟩ := maxRow_loop M i (n - (i + 1))
  unfold gaussJordanMaxRow forLoopFrom
  simp only
  exact ⟨h1, by omega, fun r hr1 hr2 => h3 r hr1 (by omega), h4⟩

/-! ## Too few distinct abscissas -/

/-- With fewer than `degree + 1` distinct abscissas some non-zero polynomial of degree at
most `degree` vanishes at all of them. -/
theorem exists_vanishing_coefficients (x : Nat → K) (n degree : Nat)
    (h : distinctCount x n < degree + 1) :
    ∃ v : Nat → K, v (distinctCount x n) = 1 ∧
      ∀ k, k < n → ∑ j in range (degree + 1), v j * x k ^ j = 0 := by
  classical
  let p : Polynomial K := ∏ t in (range n).image x, (Polynomial.X - Polynomial.C t)
  have hmonic : p.Monic := Polynomial.monic_prod_of_monic _ _ fun t _ => Polynomial.monic_X_sub_C t
  have hdeg : p.natDegree = distinctCount x n := by
    unfold distinctCount
    rw [Polynomial.natDegree_prod_of_monic _ _ fun t _ => Polynomial.monic_X_sub_C t]
    simp
  refine ⟨fun j => p.coeff j, ?_, fun k hk => ?_⟩
  · have := hmonic.coeff_natDegree
    rw [hdeg] at this
    exact this
  · rw [← Polynomial.eval_eq_sum_range' (by rw [hdeg]; exact h) (x k)]
    simp only [p, Polynomial.eval_prod, Polynomial.eval_sub, Polynomial.eval_X, Polynomial.eval_C]
    exact prod_eq_zero (mem_image_of_mem x (mem_range.2 hk)) (sub_self _)

theorem polynomialRegression_none_of_few (x y coef : Nat → K) (n degree : Nat)
    (h : distinctCount x n < degree + 1) :
    polynomialRegression x y n coef degree = none := by
  unfold polynomialRegression
  apply gaussJordan_eq_none
  cases hM : gaussJordanEliminationLoop (degree + 1)
      (gaussJordanInit (polynomialRegressionA x n degree) (polynomialRegressionB x y n degree)
        (degree + 1)) with
  | none => rfl
  | some M =>
    exfalso
    obtain ⟨v, hv1, hv⟩ := exists_vanishing_coefficients x n degree h
    have key := kernel_trivial_of_some _ _ _ M hM v (by
      intro r hr
      rw [polynomialRegressionA_eq]
      have e : ∑ c in range (degree + 1),
          (if r < degree + 1 ∧ c < degree + 1 then ∑ k in range n, x k ^ (r + c) else 0) * v c =
          ∑ c in range (degree + 1), ∑ k in range n, x k ^ r * (v c * x k ^ c) :=
        sum_congr rfl fun c hc => by
          rw [if_pos ⟨hr, mem_range.1 hc⟩, sum_mul]
          exact sum_congr rfl fun k _ => by rw [pow_add]; ring
      rw [e, sum_comm]
      refine sum_eq_zero fun k hk => ?_
      rw [← mul_sum, hv k (mem_range.1 hk), mul_zero])
    have := key (distinctCount x n) h
    rw [hv1] at this
    exact one_ne_zero this

/-! ## Runs on the further sample inputs -/

theorem sampleSwap_permutes : PermutesBelow sampleSwap 3 := by
  refine ⟨fun i hi => ?_, fun i hi j hj hij => ?_⟩
  · interval_cases i <;> simp [sampleSwap]
  · interval_cases i <;> interval_cases j <;> simp [sampleSwap] at hij ⊢

theorem sampleFlat_distinct : distinctCount sampleFlat 2 < 1 + 1 := by
  have : (range 2).image sampleFlat = {1} := by
    ext t
    simp only [mem_image, mem_range, sampleFlat, mem_singleton]
    exact ⟨fun ⟨_, _, h⟩ => h.symm, fun h => ⟨0, by norm_num, h.symm⟩⟩
  rw [distinctCount, this]
  simp

theorem sampleYears_fit (i : Nat) (hi : i < 3) :
    -2147483648 ≤ sampleYears i - 2000 ∧ sampleYears i - 2000 < 2147483648 := by
  unfold sampleYears
  omega

theorem natCast_abs_ge_tolerance (n : Nat) (hn : 1 ≤ n) : ¬ |(n : K)| < pivotTolerance := by
  rw [not_lt, abs_of_nonneg (Nat.cast_nonneg n)]
  have h1 : (1 : K) ≤ (n : K) := by exact_mod_cast hn
  exact (pivotTolerance_lt_one.le).trans h1

theorem polynomialRegression_zero_run (x y coef : Nat → K) (n : Nat) (hn : 1 ≤ n) :
    polynomialRegression x y n coef 0 =
      some (setAt coef 0 ((∑ k in range n, y k) / (n : K))) := by
  unfold polynomialRegression
  have hA : polynomialRegressionA x n 0 0 0 = (n : K) := by
    rw [polynomialRegressionA_eq]; simp
  have hB : polynomialRegressionB x y n 0 0 = ∑ k in range n, y k := by
    rw [polynomialRegressionB_eq]; simp
  rw [gaussJordan_one_some _ _ _ (by rw [hA]; exact natCast_abs_ge_tolerance n hn), hA, hB]

theorem gaussJordanArrays_none (m : SolverArrays K) (n : Nat)
    (h : gaussJordanEliminationLoop n (gaussJordanInit m.A m.B n) = none) :
    gaussJordanArrays m n = (m, false) := by
  unfold gaussJordanArrays
  simp only [h]

theorem gaussJordanArrays_some (m : SolverArrays K) (n : Nat) (M : Nat → Nat → K)
    (h : gaussJordanEliminationLoop n (gaussJordanInit m.A m.B n) = some M) :
    gaussJordanArrays m n =
      ({ A := m.A, B := m.B, X := fun c => if c < n then M c n else m.X c }, true) := by
  unfold gaussJordanArrays
  simp only [h]
  rw [forLoop_setAt n (fun k _ => M k n) (fun k => M k n) m.X (fun _ _ _ _ => rfl)]

theorem gaussJordan_of_loop (A : Nat → Nat → K) (B X : Nat → K) (n : Nat) (M : Nat → Nat → K)
    (h : gaussJordanEliminationLoop n (gaussJordanInit A B n) = some M) :
    gaussJordan A B X n = some (fun c => if c < n then M c n else X c) := by
  unfold gaussJordan
  simp only [h]
  rw [forLoop_setAt n (fun k _ => M k n) (fun k => M k n) X (fun _ _ _ _ => rfl)]

/-! ## The claims, continued -/

/-- C11, refuted as stated: on `x = (0, 1)`, `y = (-1, 1)` the call leaves `1` in `x[0]`,
where the caller had `0`: the kept sample is moved to the front of the caller's array. -/
theorem exponentialRegression_overwrites_x :
    (exponentialRegressionArrays (fun t => t) (fun t => t) sampleSkipX sampleSkipY 2).1 0 = 1 ∧
      sampleSkipX 0 = 0 ∧
      (exponentialRegressionArrays (fun t => t) (fun t => t) sampleSkipX sampleSkipY 2).1 ≠
        sampleSkipX := by
  refine ⟨sampleSkip_x, by simp [sampleSkipX], fun h => ?_⟩
  have h1 := congrFun h 0
  have h2 : (exponentialRegressionArrays (fun t => t) (fun t => t) sampleSkipX sampleSkipY 2).1 0
      = 1 := sampleSkip_x
  rw [h2] at h1
  simp [sampleSkipX] at h1

/-- C11, amended: `exponentialRegression` leaves the caller's `y` as it was and compacts
`x` in place: with `m` the number of samples having `y_i > 0`, the cells `x[0..m-1]` end up
holding the `x` values of those samples in order and the cells from `m` on are unchanged; so
`x` is unchanged whenever every `y_i` is positive. -/
theorem exponentialRegression_arrays (log exp : K → K) (x y : Nat → K) (n : Nat) :
    (exponentialRegressionArrays log exp x y n).2 = y ∧
      (∀ k, k < (positiveIndices y n).length →
        (exponentialRegressionArrays log exp x y n).1 k = x ((positiveIndices y n).getD k 0)) ∧
      (∀ k, (positiveIndices y n).length ≤ k →
        (exponentialRegressionArrays log exp x y n).1 k = x k) ∧
      ((∀ i, i < n → y i > 0) → (exponentialRegressionArrays log exp x y n).1 = x) :=
  ⟨rfl, (exponentialRegression_x log exp x y n).1, (exponentialRegression_x log exp x y n).2,
    exponentialRegression_x_of_pos log exp x y n⟩

/-- C12. `gaussJordan` does not change its inputs: whether the call comes back or exits,
the caller's `A` and `B` are as before; on the singular exit `X` is as before too; when the
call comes back, `X[0..n-1]` holds the last column of the matrix left by the complete
elimination loop, the cells of `X` from `n` on are as before, and the content of `X` is the
result `gaussJordan` is specified by above. -/
theorem gaussJordan_frame (m : SolverArrays K) (n : Nat) :
    (gaussJordanArrays m n).1.A = m.A ∧ (gaussJordanArrays m n).1.B = m.B ∧
      ((gaussJordanArrays m n).2 = false → (gaussJordanArrays m n).1.X = m.X) ∧
      (∀ k, n ≤ k → (gaussJordanArrays m n).1.X k = m.X k) ∧
      (∀ M, gaussJordanEliminationLoop n (gaussJordanInit m.A m.B n) = some M →
        (gaussJordanArrays m n).2 = true ∧
          ∀ k, k < n → (gaussJordanArrays m n).1.X k = M k n) ∧
      gaussJordan m.A m.B m.X n =
        (if (gaussJordanArrays m n).2 then some (gaussJordanArrays m n).1.X else none) := by
  cases hM : gaussJordanEliminationLoop n (gaussJordanInit m.A m.B n) with
  | none =>
    rw [gaussJordanArrays_none m n hM, gaussJordan_eq_none m.A m.B m.X n hM]
    simp
  | some M =>
    rw [gaussJordanArrays_some m n M hM, gaussJordan_of_loop m.A m.B m.X n M hM]
    refine ⟨rfl, rfl, fun h => by simp at h, fun k hk => ?_, fun M' hM' => ?_, by simp⟩
    · simp only [if_neg (not_lt.2 hk)]
    · rw [Option.some.injEq] at hM'
      subst hM'
      exact ⟨rfl, fun k hk => by simp only [if_pos hk]⟩

/-- C13. `evaluatePolynomial` computes the polynomial's value: it equals
`Σ_{i=0..degree} coef_i·x^i`, which equals the Horner form
`coef_0 + x·(coef_1 + x·(... + x·coef_degree))`; at `x = 0` (where `x^0` counts as `1`) this
is `coef_0`. -/
theorem evaluatePolynomial_horner (x : K) (coef : Nat → K) (degree : Nat) :
    evaluatePolynomial x coef degree = ∑ i in range (degree + 1), coef i * x ^ i ∧
      (∑ i in range (degree + 1), coef i * x ^ i) = horner x coef 0 degree ∧
      evaluatePolynomial 0 coef degree = coef 0 := by
  refine ⟨evaluatePolynomial_eq_sum x coef degree, ?_, ?_⟩
  · rw [horner_eq_sum]
    exact sum_congr rfl fun j _ => by rw [Nat.zero_add]
  · rw [evaluatePolynomial_eq_sum, sum_range_succ']
    simp

/-- C14. Degree-0 fit is the mean: for `n ≥ 1` samples `polynomialRegression` with degree 0
comes back with `coef[0] = (Σ y_k)/n`, and `evaluatePolynomial` on that fit gives this mean
for every `x`. -/
theorem polynomialRegression_degree_zero (x y coef : Nat → K) (n : Nat) (hn : 1 ≤ n) :
    ∃ coef', polynomialRegression x y n coef 0 = some coef' ∧
      coef' 0 = (∑ k in range n, y k) / (n : K) ∧
      ∀ t, evaluatePolynomial t coef' 0 = (∑ k in range n, y k) / (n : K) := by
  refine ⟨_, polynomialRegression_zero_run x y coef n hn, by simp [setAt], fun t => ?_⟩
  rw [evaluatePolynomial_eq_sum]
  simp [setAt]

/-- Witness of C14 on the samples `(0,1), (1,3), (2,5)`. -/
theorem polynomialRegression_degree_zero_witness :
    1 ≤ 3 ∧ ∃ coef', polynomialRegression sampleX sampleY 3 (fun _ => 0) 0 = some coef' ∧
      coef' 0 = (∑ k in range 3, sampleY k) / ((3 : Nat) : ℚ) ∧
      ∀ t, evaluatePolynomial t coef' 0 = (∑ k in range 3, sampleY k) / ((3 : Nat) : ℚ) :=
  ⟨by decide, polynomialRegression_degree_zero sampleX sampleY (fun _ => 0) 3 (by decide)⟩

/-- C15, refuted as stated: with the `int` year `-2147483648` and base year `1` the
subtraction leaves the range of `int`; the stored value is `2147483647`, and adding the base
year back does not give the year. -/
theorem normalizeYears_overflow :
    (normalizeYears sampleYearsMin (fun _ => (0 : ℚ)) 1 1).normalized_years 0 = 2147483647 ∧
      (normalizeYears sampleYearsMin (fun _ => (0 : ℚ)) 1 1).normalized_years 0 + ((1 : Int) : ℚ) ≠
        ((sampleYearsMin 0 : Int) : ℚ) := by
  refine ⟨sampleYearsMin_normalized, ?_⟩
  rw [sampleYearsMin_normalized]
  norm_num [sampleYearsMin]

/-- C15, amended: when every difference `years[i] − base_year`, `i < n`, fits in an `int`
(no signed overflow), `normalizeYears` writes `normalized_years[i] = years[i] − base_year`
for every `i < n`, so that `normalized_years[i] + base_year` is `years[i]` exactly; it leaves
`normalized_years` untouched from `n` on and does not modify the original years. -/
theorem normalizeYears_roundtrip (original_years : Nat → Int) (normalized_years : Nat → K)
    (n : Nat) (base_year : Int)
    (hfit : ∀ i, i < n → -2147483648 ≤ original_years i - base_year ∧
      original_years i - base_year < 2147483648) :
    (∀ i, i < n →
      (normalizeYears original_years normalized_years n base_year).normalized_years i =
          ((original_years i - base_year : Int) : K) ∧
        (normalizeYears original_years normalized_years n base_year).normalized_years i +
          ((base_year : Int) : K) = ((original_years i : Int) : K)) ∧
      (∀ i, n ≤ i →
        (normalizeYears original_years normalized_years n base_year).normalized_years i =
          normalized_years i) ∧
      (normalizeYears original_years normalized_years n base_year).original_years =
        original_years := by
  obtain ⟨h1, h2⟩ := normalizeYears_eq original_years normalized_years n base_year
  refine ⟨fun i hi => ?_, fun i hi => ?_, h1⟩
  · have hv : (normalizeYears original_years normalized_years n base_year).normalized_years i =
        ((original_years i - base_year : Int) : K) := by
      rw [h2]
      simp only [if_pos hi]
      rw [wrapInt32_of_fits _ (hfit i hi).1 (hfit i hi).2]
    refine ⟨hv, ?_⟩
    rw [hv]
    push_cast
    ring
  · rw [h2]
    simp only [if_neg (not_lt.2 hi)]

/-- Witness of the amended C15 on the years `2001, 2002, 2003` with base year `2000`. -/
theorem normalizeYears_roundtrip_witness :
    (∀ i, i < 3 → -2147483648 ≤ sampleYears i - 2000 ∧ sampleYears i - 2000 < 2147483648) ∧
      (normalizeYears sampleYears (fun _ => (0 : ℚ)) 3 2000).normalized_years 1 +
        ((2000 : Int) : ℚ) = ((sampleYears 1 : Int) : ℚ) :=
  ⟨sampleYears_fit,
    ((normalizeYears_roundtrip sampleYears (fun _ => (0 : ℚ)) 3 2000 sampleYears_fit).1 1
      (by decide)).2⟩

/-- C16. Sample order does not affect the fit: when `σ` permutes the indices `0..n-1` and
is applied to `x` and `y` together, `linearRegression` returns the same pair,
`exponentialRegression` the same `(a, b)`, and `polynomialRegression`, for every degree, the
same outcome (the same coefficients, or the fatal exit in both cases). -/
theorem fit_order_independent (σ : Nat → Nat) (n : Nat) (h : PermutesBelow σ n)
    (x y : Nat → K) :
    linearRegression (fun i => x (σ i)) (fun i => y (σ i)) n = linearRegression x y n ∧
      (∀ log exp : K → K,
        (exponentialRegression log exp (fun i => x (σ i)) (fun i => y (σ i)) n).a =
            (exponentialRegression log exp x y n).a ∧
          (exponentialRegression log exp (fun i => x (σ i)) (fun i => y (σ i)) n).b =
            (exponentialRegression log exp x y n).b) ∧
      ∀ (coef : Nat → K) (degree : Nat),
        polynomialRegression (fun i => x (σ i)) (fun i => y (σ i)) n coef degree =
          polynomialRegression x y n coef degree :=
  ⟨linearRegression_perm σ n h x y,
    fun log exp => exponentialRegression_perm log exp σ n h x y,
    fun coef degree => polynomialRegression_perm σ n h x y coef degree⟩

/-- Witness of C16: the first two of the samples `(0,1), (1,3), (2,5)` exchanged. -/
theorem fit_order_independent_witness :
    PermutesBelow sampleSwap 3 ∧
      linearRegression (fun i => sampleX (sampleSwap i)) (fun i => sampleY (sampleSwap i)) 3 =
        linearRegression sampleX sampleY 3 :=
  ⟨sampleSwap_permutes, (fit_order_independent sampleSwap 3 sampleSwap_permutes sampleX sampleY).1⟩

/-- C17. The normal-equation system built by `polynomialRegression`: the matrix and vector
handed to `gaussJordan` have `A[i][j] = Σ_k x_k^(i+j)` and `B[i] = Σ_k y_k·x_k^i` for
`i, j` in `0..degree`; `A` is symmetric and positive semidefinite, with
`Σ_i Σ_j v_i·A[i][j]·v_j = Σ_k (Σ_i v_i·x_k^i)² ≥ 0` for every `v`. -/
theorem normalEquations_matrix (x y : Nat → K) (n degree : Nat) :
    (∀ coef, polynomialRegression x y n coef degree =
      gaussJordan (polynomialRegressionA x n degree) (polynomialRegressionB x y n degree) coef
        (degree + 1)) ∧
      (∀ i j, i < degree + 1 → j < degree + 1 →
        polynomialRegressionA x n degree i j = ∑ k in range n, x k ^ (i + j) ∧
          polynomialRegressionA x n degree i j = polynomialRegressionA x n degree j i) ∧
      (∀ i, i < degree + 1 →
        polynomialRegressionB x y n degree i = ∑ k in range n, y k * x k ^ i) ∧
      ∀ v : Nat → K,
        ∑ i in range (degree + 1), ∑ j in range (degree + 1),
            v i * polynomialRegressionA x n degree i j * v j =
          ∑ k in range n, (∑ i in range (degree + 1), v i * x k ^ i) ^ 2 ∧
        0 ≤ ∑ i in range (degree + 1), ∑ j in range (degree + 1),
            v i * polynomialRegressionA x n degree i j * v j := by
  refine ⟨fun _ => rfl, fun i j hi hj => ?_, fun i hi => ?_, fun v => ?_⟩
  · rw [polynomialRegressionA_eq]
    simp only [if_pos (And.intro hi hj), if_pos (And.intro hj hi), Nat.add_comm j i, and_self]
  · rw [polynomialRegressionB_eq]
    simp only [if_pos hi]
  · refine ⟨normalMatrix_quadratic x n degree v, ?_⟩
    rw [normalMatrix_quadratic]
    exact sum_nonneg fun k _ => sq_nonneg _

/-- C18. Partial pivoting in `gaussJordan`: in pivot column `i < n` the row `max_row` chosen
is the lowest-indexed row `r ≥ i` of largest `|augmented[r][i]|` among the rows `i..n-1`;
the exchange swaps rows `i` and `max_row` over all columns `0..n`, the right-hand side
included, and leaves the other rows alone; afterwards `|augmented[i][i]| ≥ |augmented[j][i]|`
for every row `j > i`. -/
theorem gaussJordan_partial_pivoting (augmented : Nat → Nat → K) (i n : Nat) (hi : i < n) :
    i ≤ gaussJordanMaxRow augmented i n ∧ gaussJordanMaxRow augmented i n < n ∧
      (∀ r, i ≤ r → r < n →
        |augmented r i| ≤ |augmented (gaussJordanMaxRow augmented i n) i|) ∧
      (∀ r, i ≤ r → r < gaussJordanMaxRow augmented i n →
        |augmented r i| < |augmented (gaussJordanMaxRow augmented i n) i|) ∧
      (∀ c, c ≤ n →
        gaussJordanSwap augmented i (gaussJordanMaxRow augmented i n) n i c =
            augmented (gaussJordanMaxRow augmented i n) c ∧
          gaussJordanSwap augmented i (gaussJordanMaxRow augmented i n) n
            (gaussJordanMaxRow augmented i n) c = augmented i c ∧
          ∀ r, r ≠ i → r ≠ gaussJordanMaxRow augmented i n →
            gaussJordanSwap augmented i (gaussJordanMaxRow augmented i n) n r c =
              augmented r c) ∧
      ∀ j, i < j → j < n →
        |gaussJordanSwap augmented i (gaussJordanMaxRow augmented i n) n j i| ≤
          |gaussJordanSwap augmented i (gaussJordanMaxRow augmented i n) n i i| := by
  obtain ⟨h1, h2, h3, h4⟩ := gaussJordanMaxRow_spec augmented i n hi
  rw [gaussJordanSwap_eq]
  generalize gaussJordanMaxRow augmented i n = p at h1 h2 h3 h4 ⊢
  refine ⟨h1, h2, h3, h4, fun c hc => ?_, fun j hj1 hj2 => ?_⟩
  · have hc' : c < n + 1 := by omega
    refine ⟨by simp [swapRows, hc'], ?_, fun r hr1 hr2 => by simp [swapRows, hc', hr1, hr2]⟩
    by_cases hpi : p = i
    · simp [swapRows, hc', hpi]
    · simp [swapRows, hc', hpi]
  · have hin : i < n + 1 := by omega
    have hji : ¬ j = i := by omega
    simp only [swapRows, if_pos hin, if_neg hji, if_true]
    by_cases hjp : j = p
    · rw [if_pos hjp]
      exact h3 i le_rfl hi
    · rw [if_neg hjp]
      exact h3 j hj1.le hj2

/-- Witness of C18 in column `0` of the augmented matrix of `[[1, 2], [3, 4]]·X = [4, 5]`. -/
theorem gaussJordan_partial_pivoting_witness :
    0 < 2 ∧ gaussJordanMaxRow (gaussJordanInit sampleA sampleB 2) 0 2 < 2 :=
  ⟨by decide, (gaussJordan_partial_pivoting (gaussJordanInit sampleA sampleB 2) 0 2
    (by decide)).2.1⟩

/-- C19. Too few distinct `x` values abort the polynomial fit: when the samples take fewer
than `degree + 1` distinct `x` values (the empty sample list included),
`polynomialRegression` ends in the fatal singular-matrix branch of `gaussJordan` and returns
no coefficients. -/
theorem polynomialRegression_few_distinct (x y coef : Nat → K) (n degree : Nat)
    (h : distinctCount x n < degree + 1) :
    polynomialRegression x y n coef degree = none :=
  polynomialRegression_none_of_few x y coef n degree h

/-- Witness of C19: two samples with the same abscissa `1`, degree 1. -/
theorem polynomialRegression_few_distinct_witness :
    distinctCount sampleFlat 2 < 1 + 1 ∧
      polynomialRegression sampleFlat sampleY 2 (fun _ => 0) 1 = none :=
  ⟨sampleFlat_distinct,
    polynomialRegression_few_distinct sampleFlat sampleY (fun _ => 0) 2 1 sampleFlat_distinct⟩

/-- C20. The singularity test uses an absolute tolerance and so rejects some nonsingular
systems: the `1×1` system `A = [[1e-11]]`, `B = [1e-11]` has determinant `1e-11 ≠ 0` and the
single solution `x = 1`, yet `gaussJordan` takes the fatal singular-matrix branch on it. -/
theorem gaussJordan_rejects_small_pivot :
    (toMatrix sampleTinyA 1).det ≠ 0 ∧
      (∀ i, i < 1 → ∑ j in range 1, sampleTinyA i j * (fun _ => (1 : ℚ)) j = sampleTinyB i) ∧
      (∀ c : Nat → ℚ, (∀ i, i < 1 → ∑ j in range 1, sampleTinyA i j * c j = sampleTinyB i) →
        c 0 = 1) ∧
      ∀ X : Nat → ℚ, gaussJordan sampleTinyA sampleTinyB X 1 = none := by
  refine ⟨?_, fun i _ => ?_, fun c hc => ?_, fun X => ?_⟩
  · simp [toMatrix, Matrix.det_fin_one, sampleTinyA]
  · simp [sampleTinyA, sampleTinyB]
  · have := hc 0 (by decide)
    simp only [sum_range_one, sampleTinyA, sampleTinyB] at this
    have h0 : (1 / 10 ^ 11 : ℚ) ≠ 0 := by norm_num
    field_simp at this
    linarith
  · apply gaussJordan_one_none
    norm_num [sampleTinyA, pivotTolerance, abs_lt]

/-! ## The straight line as a polynomial of degree one -/

/-- The pair returned by `linearRegression` solves the normal equations of degree one. -/
theorem lineFit_solves_normal (x y : Nat → K) (n : Nat) (hn : (n : K) ≠ 0)
    (hD : linearRegressionDenominator x y n ≠ 0) (i : Nat) (hi : i < 1 + 1) :
    ∑ j in range (1 + 1), polynomialRegressionA x n 1 i j *
        (fun j => if j = 0 then (linearRegression x y n).1 else (linearRegression x y n).2) j =
      polynomialRegressionB x y n 1 i := by
  obtain ⟨h1, h2⟩ := linearRegression_normal x y n hn hD
  rw [polynomialRegressionA_eq, polynomialRegressionB_eq]
  set a := (linearRegression x y n).1
  set b := (linearRegression x y n).2
  have e1 : ∑ k in range n, (y k - (a + b * x k)) =
      ∑ k in range n, y k - ((n : K) * a + b * ∑ k in range n, x k) := by
    simp only [sum_sub_distrib, sum_add_distrib, sum_const, card_range, ← mul_sum, nsmul_eq_mul]
  have e2 : ∑ k in range n, (y k - (a + b * x k)) * x k =
      ∑ k in range n, y k * x k -
        (a * ∑ k in range n, x k + b * ∑ k in range n, x k ^ 2) := by
    have : ∀ k, (y k - (a + b * x k)) * x k = y k * x k - (a * x k + b * x k ^ 2) := by
      intro k; ring
    simp only [this, sum_sub_distrib, sum_add_distrib, ← mul_sum]
  rw [e1] at h1
  rw [e2] at h2
  interval_cases i
  · simp only [sum_range_succ, range_zero, sum_empty, zero_add, Nat.lt_add_one, Nat.zero_lt_succ,
      and_self, if_true, Nat.add_zero, pow_zero, pow_one, sum_const, card_range, nsmul_eq_mul,
      mul_one, Nat.one_ne_zero, if_false, Nat.one_lt_ofNat, Nat.ofNat_pos]
    linarith
  · simp only [sum_range_succ, range_zero, sum_empty, zero_add, Nat.lt_add_one, Nat.zero_lt_succ,
      and_self, if_true, Nat.add_zero, pow_one, Nat.one_ne_zero, if_false, Nat.one_lt_ofNat,
      Nat.ofNat_pos, Nat.reduceAdd]
    linarith

/-! ## The exponential prediction -/

theorem positiveIndices_index (y : Nat → K) (n i : Nat) (hi : i < n) (hy : y i > 0) :
    ∃ k, k < (positiveIndices y n).length ∧ (positiveIndices y n).getD k 0 = i := by
  have hmem : i ∈ positiveIndices y n := by
    unfold positiveIndices
    exact List.mem_filter.2 ⟨List.mem_range.2 hi, by simpa using hy⟩
  obtain ⟨k, hk, hki⟩ := List.getElem_of_mem hmem
  exact ⟨k, hk, by rw [List.getD_eq_getElem _ _ hk, hki]⟩

/-- With two kept samples of different abscissa, the fit that `exponentialRegression`
delegates divides by non-zero numbers. -/
theorem expFit_nondegenerate (log : K → K) (x y : Nat → K) (n : Nat)
    (hnd : ∃ i < n, ∃ j < n, y i > 0 ∧ y j > 0 ∧ x i ≠ x j) :
    2 ≤ (exponentialRegressionLoop log x y n).valid_points ∧
      0 < linearRegressionDenominator (exponentialRegressionLoop log x y n).x
        (exponentialRegressionLoop log x y n).ln_y
        (exponentialRegressionLoop log x y n).valid_points := by
  obtain ⟨i, hi, j, hj, hyi, hyj, hne⟩ := hnd
  obtain ⟨hvp, hlow, _⟩ := exponentialRegressionLoop_invariant log x y n
  obtain ⟨ki, hki, hki'⟩ := positiveIndices_index y n i hi hyi
  obtain ⟨kj, hkj, hkj'⟩ := positiveIndices_index y n j hj hyj
  have hk : ki ≠ kj := by
    intro h
    rw [h, hkj'] at hki'
    exact hne (by rw [hki'])
  rw [hvp]
  refine ⟨by omega, denominator_pos _ _ _ ⟨ki, hki, kj, hkj, ?_⟩⟩
  rw [(hlow ki hki).1, (hlow kj hkj).1, hki', hkj']
  exact hne

theorem scenario_prediction :
    predictExponential Real.exp 10 (Real.log 2) 2004 2000 = 160 := by
  unfold predictExponential
  have h2 : Real.exp (Real.log 2) = 2 := Real.exp_log (by norm_num)
  have : Real.exp (Real.log 2 * (((2004 - 2000 : Int)) : ℝ)) = 2 ^ 4 := by
    have := Real.exp_nat_mul (Real.log 2) 4
    rw [h2] at this
    rw [← this]
    congr 1
    push_cast
    ring
  simp only [this]
  norm_num

theorem scenario_nondegenerate :
    ∃ i < 4, ∃ j < 4, (scenarioY : Nat → ℝ) i > 0 ∧ (scenarioY : Nat → ℝ) j > 0 ∧
      (scenarioX : Nat → ℝ) i ≠ scenarioX j :=
  ⟨0, by norm_num, 1, by norm_num, by simp [scenarioY], by simp [scenarioY],
    by simp [scenarioX]⟩

/-! ## The claims, concluded -/

/-- C21. The two fitters agree on lines: for `n ≥ 2` samples with two distinct `x` values,
whenever `polynomialRegression` with degree 1 comes back with `coef'`, the pair
`(coef'[0], coef'[1])` is the pair `(a, b)` returned by `linearRegression` on the same
samples. -/
theorem polynomialRegression_degree_one_linear (x y coef coef' : Nat → K) (n : Nat)
    (hn : 2 ≤ n) (hx : ∃ i < n, ∃ j < n, x i ≠ x j)
    (h : polynomialRegression x y n coef 1 = some coef') :
    (coef' 0, coef' 1) = linearRegression x y n := by
  have key := gaussJordan_unique _ _ _ _ _ h
    (fun j => if j = 0 then (linearRegression x y n).1 else (linearRegression x y n).2)
    (lineFit_solves_normal x y n (natCast_ne_zero_of_two_le n hn) (denominator_pos x y n hx).ne')
  have h0 := key 0 (by decide)
  have h1 := key 1 (by decide)
  simp only [if_true, Nat.one_ne_zero, if_false] at h0 h1
  rw [h0, h1]

/-- Witness of C21 on the samples `(0,1), (1,3), (2,5)`. -/
theorem polynomialRegression_degree_one_linear_witness :
    2 ≤ 3 ∧ (∃ i < 3, ∃ j < 3, sampleX i ≠ sampleX j) ∧
      polynomialRegression sampleX sampleY 3 (fun _ => 0) 1 =
        some (setAt (setAt (fun _ => 0) 0 1) 1 2) ∧
      ((setAt (setAt (fun _ => 0) 0 1) 1 2 : Nat → ℚ) 0,
        (setAt (setAt (fun _ => 0) 0 1) 1 2 : Nat → ℚ) 1) = linearRegression sampleX sampleY 3 :=
  ⟨by decide, ⟨0, by decide, 1, by decide, by simp [sampleX]⟩, samplePoly_run _,
    polynomialRegression_degree_one_linear sampleX sampleY (fun _ => 0) _ 3 (by decide)
      ⟨0, by decide, 1, by decide, by simp [sampleX]⟩ (samplePoly_run _)⟩

/-- C22. The exponential path never predicts a non-positive percentage, over the reals: on
a non-degenerate input (two samples with `y > 0` and different `x`, so that the delegated fit
has at least two samples and a positive divisor) the returned `a` is positive and the
prediction `a·e^(b·(year − base_year))` of `main` is positive for every year; nothing bounds
it by `100`: for the scenario `{(0,10),(1,20),(2,40),(3,80)}` it exceeds `100` in 2004. -/
theorem exponential_prediction_positive (x y : Nat → ℝ) (n : Nat)
    (hnd : ∃ i < n, ∃ j < n, y i > 0 ∧ y j > 0 ∧ x i ≠ x j) (year base_year : Int) :
    2 ≤ (exponentialRegressionLoop Real.log x y n).valid_points ∧
      0 < linearRegressionDenominator (exponentialRegressionLoop Real.log x y n).x
        (exponentialRegressionLoop Real.log x y n).ln_y
        (exponentialRegressionLoop Real.log x y n).valid_points ∧
      0 < (exponentialRegression Real.log Real.exp x y n).a ∧
      0 < predictExponential Real.exp (exponentialRegression Real.log Real.exp x y n).a
        (exponentialRegression Real.log Real.exp x y n).b year base_year ∧
      100 < predictExponential Real.exp
        (exponentialRegression Real.log Real.exp scenarioX scenarioY 4).a
        (exponentialRegression Real.log Real.exp scenarioX scenarioY 4).b 2004 2000 := by
  have ha : 0 < (exponentialRegression Real.log Real.exp x y n).a := by
    rw [(exponentialRegression_eq Real.log Real.exp x y n).1]
    exact Real.exp_pos _
  refine ⟨(expFit_nondegenerate Real.log x y n hnd).1, (expFit_nondegenerate Real.log x y n hnd).2,
    ha, ?_, ?_⟩
  · unfold predictExponential
    exact mul_pos ha (Real.exp_pos _)
  · have hs := expFit_recovers_real 10 (Real.log 2) (by norm_num) scenarioX scenarioY 4
      (by norm_num) scenario_distinct scenario_exact
    rw [hs.1, hs.2, scenario_prediction]
    norm_num

/-- Witness of C22 on the scenario samples, for the year 2005 with base year 2000. -/
theorem exponential_prediction_positive_witness :
    (∃ i < 4, ∃ j < 4, (scenarioY : Nat → ℝ) i > 0 ∧ (scenarioY : Nat → ℝ) j > 0 ∧
        (scenarioX : Nat → ℝ) i ≠ scenarioX j) ∧
      0 < predictExponential Real.exp
        (exponentialRegression Real.log Real.exp scenarioX scenarioY 4).a
        (exponentialRegression Real.log Real.exp scenarioX scenarioY 4).b 2005 2000 :=
  ⟨scenario_nondegenerate,
    (exponential_prediction_positive scenarioX scenarioY 4 scenario_nondegenerate 2005
      2000).2.2.2.1⟩

end Komnum
